import Mathlib

/-!
Verification development for imap_dedupe_batch.py, a batch IMAP
deduplication pipeline.  The Python source is shallowly embedded below:
pure helper functions (normalize, hash_key, chunk_iter,
extract_uid_and_size, filter_undeleted) are translated directly; the
stateful pipeline (main) is modelled as a state-passing function that
also emits an event trace of the protocol commands it issues.

Python standard-library calls are modelled at their interface:
  * email.header.decode_header / make_header / str(Header) are modelled
    by decode_header_model / appendChunk / headerStr below, covering the
    RFC 2047 paths the program exercises (q- and b-encoded words, the
    us-ascii / utf-8 / iso-8859-1 codecs; unknown charsets and decoding
    failures surface as errors, which normalize catches and turns into
    the raw-text fallback, exactly as the try/except in the source).
  * hashlib.sha256(basis).hexdigest() is a fixed deterministic function
    of the basis string; since the spec treats digest collisions as an
    accepted risk and not as behaviour to reason about, fingerprints are
    identified with their basis strings (equal bases iff equal digests).
  * Python str.lower / str.strip / str.split / str.isspace are modelled
    on the ASCII range that the program manipulates.
-/

namespace ImapDedupe

/-! ### Python string primitives (modelled on the ASCII whitespace set) -/

/-- The whitespace characters of Python str.split / str.strip
(space, tab, newline, carriage return, vertical tab, form feed). -/
def isPySpace (c : Char) : Bool :=
  c = ' ' ∨ c = '\t' ∨ c = '\n' ∨ c = '\x0d' ∨ c = '\x0b' ∨ c = '\x0c'

/-- Python str.split() with no argument: split on whitespace runs,
dropping empty tokens (fuel-structural, with the string length as
fuel, so it reduces in the kernel). -/
def pySplitWsAux : Nat → List Char → List (List Char)
  | 0, _ => []
  | _, [] => []
  | fuel + 1, c :: cs =>
    if isPySpace c then pySplitWsAux fuel cs
    else
      (c :: cs.takeWhile (fun x => ! isPySpace x)) ::
        pySplitWsAux fuel (cs.dropWhile (fun x => ! isPySpace x))

def pySplitWs (s : List Char) : List (List Char) :=
  pySplitWsAux s.length s

/-- Python str.strip() with no argument. -/
def pyStrip (s : List Char) : List Char :=
  ((s.dropWhile isPySpace).reverse.dropWhile isPySpace).reverse

/-- Python str.lstrip() with no argument. -/
def pyLstrip (s : List Char) : List Char :=
  s.dropWhile isPySpace

/-- " ".join(tokens). -/
def joinSpace : List (List Char) → List Char
  | [] => []
  | [t] => t
  | t :: ts => t ++ ' ' :: joinSpace ts

/-- Python str.lower(), on the ASCII letters the program hashes. -/
def pyLower (s : String) : String :=
  String.mk (s.data.map Char.toLower)

/-- Decimal digits of a natural number, most significant first
(fuel-structural so that it reduces in the kernel). -/
def natToDigitsAux : Nat → Nat → List Nat → List Nat
  | 0, _, acc => acc
  | fuel + 1, n, acc =>
    if n < 10 then n :: acc else natToDigitsAux fuel (n / 10) (n % 10 :: acc)

def natToDigits (n : Nat) : List Nat :=
  natToDigitsAux (n + 1) n []

def digitChar (d : Nat) : Char :=
  Char.ofNat (48 + d)

/-- Python str(n) for a natural number. -/
def natToStr (n : Nat) : List Char :=
  (natToDigits n).map digitChar

/-- Python int(token) as used on server-supplied UID/size tokens.
Python int() additionally accepts signs and surrounding whitespace;
the tokens parsed by this program are unsigned decimal numerals, which
is the case modelled here. -/
def pyParseNat (s : List Char) : Option Nat :=
  if s ≠ [] ∧ s.all Char.isDigit then
    some (s.foldl (fun a c => 10 * a + (c.toNat - 48)) 0)
  else none

/-- Python s.replace(old, new) for a nonempty pattern old
(the pattern is passed as head and tail so it is nonempty by
construction; both call sites in the source use nonempty patterns).
Fuel-structural, with the string length as fuel: every step consumes at
least one character. -/
def pyReplaceAux : Nat → List Char → Char → List Char → List Char → List Char
  | 0, s, _, _, _ => s
  | _, [], _, _, _ => []
  | fuel + 1, c :: cs, oh, ot, new =>
    if (oh :: ot).isPrefixOf (c :: cs) then
      new ++ pyReplaceAux fuel ((c :: cs).drop (oh :: ot).length) oh ot new
    else
      c :: pyReplaceAux fuel cs oh ot new

def pyReplace (s : List Char) (oh : Char) (ot : List Char) (new : List Char) : List Char :=
  pyReplaceAux s.length s oh ot new

/-- Substring containment, modelling Python (pat in s) for bytes/str. -/
def containsSub (s pat : List Char) : Bool :=
  match s with
  | [] => pat.isPrefixOf ([] : List Char)
  | _ :: cs => pat.isPrefixOf s || containsSub cs pat

/-- Python str.splitlines() restricted to the line separators that occur
in mail headers (\n, \r, \r\n). -/
def splitLinesPy : List Char → List (List Char)
  | [] => []
  | '\x0d' :: '\n' :: rest => [] :: splitLinesPy rest
  | '\x0d' :: rest => [] :: splitLinesPy rest
  | '\n' :: rest => [] :: splitLinesPy rest
  | c :: rest =>
    match splitLinesPy rest with
    | [] => [[c]]
    | l :: ls => (c :: l) :: ls

/-! ### RFC 2047 encoded words: model of email.header.decode_header -/

/-- Scan for the first "?=" terminator of an encoded-word payload
(the payload may not contain a newline, matching the regex dot). -/
def splitAtQE : List Char → Option (List Char × List Char)
  | [] => none
  | '?' :: '=' :: rest => some ([], rest)
  | c :: rest =>
    if c = '\n' then none
    else (splitAtQE rest).map (fun p => (c :: p.1, p.2))

/-- Try to match an encoded word =?charset?enc?payload?= at the start of
the text, per the ecre regex of email.header (charset is the run of
non-question-mark characters, enc is one of q Q b B, payload is the
shortest run ending in ?=). Returns (charset, enc, payload, rest). -/
def matchEWAt (s : List Char) : Option (List Char × Char × List Char × List Char) :=
  match s with
  | '=' :: '?' :: rest =>
    let cs := rest.takeWhile (· ≠ '?')
    (match rest.dropWhile (· ≠ '?') with
     | '?' :: e :: '?' :: rest2 =>
       if e = 'q' ∨ e = 'Q' ∨ e = 'b' ∨ e = 'B' then
         (splitAtQE rest2).map (fun p => (cs, e, p.1, p.2))
       else none
     | _ => none)
  | _ => none

/-- First encoded-word match in the text: (text before the match,
charset, enc, payload, text after the match). -/
def findEW : List Char → Option (List Char × List Char × Char × List Char × List Char)
  | [] => none
  | c :: cs =>
    match matchEWAt (c :: cs) with
    | some (a, e, p, r) => some ([], a, e, p, r)
    | none => (findEW cs).map (fun q => (c :: q.1, q.2.1, q.2.2.1, q.2.2.2.1, q.2.2.2.2))

/-- A word produced by splitting a header line at encoded words:
either plain text or an encoded word (charset and encoding already
lower-cased, as decode_header does). -/
inductive RawWord where
  | plain (t : List Char)
  | encw (charset : List Char) (enc : Char) (payload : List Char)
deriving DecidableEq, Repr

def RawWord.isEnc : RawWord → Bool
  | .plain _ => false
  | .encw _ _ _ => true

def RawWord.text : RawWord → List Char
  | .plain t => t
  | .encw _ _ p => p

/-- Split one header line into alternating plain/encoded words; the
first plain part of the line is lstripped, matching decode_header. -/
def lineWordsAux : Nat → Bool → List Char → List RawWord
  | 0, _, _ => []
  | fuel + 1, first, line =>
    match findEW line with
    | none =>
      let t := if first then pyLstrip line else line
      if t = [] then [] else [RawWord.plain t]
    | some (pre, cs, e, pay, rest) =>
      let t := if first then pyLstrip pre else pre
      (if t = [] then [] else [RawWord.plain t]) ++
        RawWord.encw (cs.map Char.toLower) e.toLower pay :: lineWordsAux fuel false rest

def lineWords (line : List Char) : List RawWord :=
  lineWordsAux (line.length + 1) true line

/-- Python str.isspace(): nonempty and all whitespace. -/
def isSpaceStr (s : List Char) : Bool :=
  s ≠ [] && s.all isPySpace

/-- Drop plain whitespace-only words that sit between two encoded words
(the droplist pass of decode_header). -/
def dropWsBetween (ws : List RawWord) : List RawWord :=
  ((List.range ws.length).filterMap fun i =>
    match ws.get? i with
    | none => none
    | some w =>
      let dropped : Bool :=
        decide (1 ≤ i) &&
        (match ws.get? (i - 1) with | some a => a.isEnc | none => false) &&
        (match ws.get? (i + 1) with | some a => a.isEnc | none => false) &&
        isSpaceStr w.text
      if dropped then none else some w)

/-- email.quoprimime.header_decode: underscores become spaces and =XX
hex escapes become the character with that code (the two rewrites do
not interact, so they are fused into a single scan). -/
def qDecode : List Char → List Char
  | [] => []
  | '_' :: rest => ' ' :: qDecode rest
  | '=' :: a :: b :: rest =>
    if a.isDigit ∨ ('a' ≤ a ∧ a ≤ 'f') ∨ ('A' ≤ a ∧ a ≤ 'F') then
      if b.isDigit ∨ ('a' ≤ b ∧ b ≤ 'f') ∨ ('A' ≤ b ∧ b ≤ 'F') then
        Char.ofNat (16 * hexVal a + hexVal b) :: qDecode rest
      else '=' :: qDecode (a :: b :: rest)
    else '=' :: qDecode (a :: b :: rest)
  | c :: rest => c :: qDecode rest
where
  hexVal (c : Char) : Nat :=
    if c.isDigit then c.toNat - 48
    else if 'a' ≤ c ∧ c ≤ 'f' then c.toNat - 87
    else c.toNat - 55

/-- Base64 alphabet value of a character. -/
def b64Val (c : Char) : Option Nat :=
  if 'A' ≤ c ∧ c ≤ 'Z' then some (c.toNat - 65)
  else if 'a' ≤ c ∧ c ≤ 'z' then some (c.toNat - 71)
  else if c.isDigit then some (c.toNat + 4)
  else if c = '+' then some 62
  else if c = '/' then some 63
  else none

/-- binascii.a2b_base64 in its default lenient mode on the payloads this
program meets: characters outside the alphabet (including padding) are
skipped, complete and final partial quanta are decoded, and a dangling
single character is a decoding error (decode_header turns that error
into HeaderParseError, which normalize catches). -/
def b64Quads : List Nat → Option (List Nat)
  | [] => some []
  | [_] => none
  | [a, b] => some [(a * 4 + b / 16) % 256]
  | [a, b, c] => some [(a * 4 + b / 16) % 256, (b % 16 * 16 + c / 4) % 256]
  | a :: b :: c :: d :: rest =>
    (b64Quads rest).map
      (fun tl => (a * 4 + b / 16) % 256 :: (b % 16 * 16 + c / 4) % 256 ::
                 (c % 4 * 64 + d) % 256 :: tl)

def bDecode (payload : List Char) : Option (List Nat) :=
  b64Quads (payload.filterMap b64Val)

/-- bytes(word, "raw-unicode-escape"): code points up to 0xFF map to the
byte itself; larger code points expand to a backslash-u escape. -/
def rawUnicodeEscape (c : Char) : List Nat :=
  if c.toNat ≤ 0xFF then [c.toNat]
  else if c.toNat ≤ 0xFFFF then
    92 :: 117 :: (show List Nat from
      [c.toNat / 4096 % 16, c.toNat / 256 % 16, c.toNat / 16 % 16, c.toNat % 16].map
        (fun d => if d < 10 then 48 + d else 87 + d))
  else
    92 :: 85 :: (show List Nat from
      [c.toNat / 0x10000000 % 16, c.toNat / 0x1000000 % 16, c.toNat / 0x100000 % 16,
       c.toNat / 0x10000 % 16, c.toNat / 4096 % 16, c.toNat / 256 % 16,
       c.toNat / 16 % 16, c.toNat % 16].map
        (fun d => if d < 10 then 48 + d else 87 + d))

/-- A decoded word: still a str (plain words before the final collapse,
and the whole header on the no-encoded-words fast path) or bytes. -/
abbrev DecodedText := Sum (List Char) (List Nat)

def decodedToBytes : DecodedText → List Nat
  | .inl s => s.flatMap rawUnicodeEscape
  | .inr bs => bs

/-- Decode one word per decode_header (q and b encodings; the matcher
only produces q/b so no other encoding can reach this point). -/
def decodeWord : RawWord → Option (DecodedText × Option (List Char))
  | .plain t => some (.inl t, none)
  | .encw cs e pay =>
    if e = 'q' then some (.inl (qDecode pay), some cs)
    else if e = 'b' then
      let pad := pay.length % 4
      let pay2 := if pad = 0 then pay else pay ++ List.replicate (4 - pad) '='
      (bDecode pay2).map (fun bs => (.inr bs, some cs))
    else none

/-- Collapse consecutive words with the same charset into single byte
chunks (the final loop of decode_header). -/
def collapseGo : List (DecodedText × Option (List Char)) →
    List Nat × Option (List Char) → List (List Nat × Option (List Char))
  | [], last => [last]
  | (w, cs) :: rest, last =>
    if cs = last.2 then collapseGo rest (last.1 ++ decodedToBytes w, last.2)
    else last :: collapseGo rest (decodedToBytes w, cs)

def collapseChunks : List (DecodedText × Option (List Char)) →
    Option (List (List Nat × Option (List Char)))
  | [] => none
  | (w, cs) :: rest => some (collapseGo rest (decodedToBytes w, cs))

/-- email.header.decode_header: the fast path when no encoded word
occurs anywhere, else the per-line split / whitespace-drop / decode /
collapse pipeline. Failure (HeaderParseError and kin) is None. -/
def decode_header_model (s : List Char) :
    Option (List (DecodedText × Option (List Char))) :=
  if (findEW s).isNone then some [(.inl s, none)]
  else
    let words := (splitLinesPy s).foldl (fun acc line => acc ++ lineWords line) []
    match (dropWsBetween words).mapM decodeWord with
    | none => none
    | some dws =>
      (collapseChunks dws).map (fun cks => cks.map (fun p => (.inr p.1, p.2)))

/-! ### Model of make_header and str(Header) -/

inductive Codec where
  | ascii | utf8 | latin1
deriving DecidableEq, Repr

/-- Codec lookup for the charset names this model supports, together
with the canonical charset name after email.charset aliasing.  Other
names yield a lookup error when bytes are decoded, which normalize
catches (the observable effect is identical). -/
def codecFor (cs : List Char) : Option (Codec × List Char) :=
  if cs = "us-ascii".data ∨ cs = "ascii".data then some (.ascii, "us-ascii".data)
  else if cs = "utf-8".data then some (.utf8, "utf-8".data)
  else if cs = "utf8".data then some (.utf8, "utf8".data)
  else if cs = "iso-8859-1".data ∨ cs = "latin-1".data ∨ cs = "latin_1".data ∨
          cs = "latin1".data then some (.latin1, "iso-8859-1".data)
  else none

/-- Strict UTF-8 decoding (rejecting truncated, overlong, surrogate and
out-of-range sequences, as Python strict mode does). -/
def utf8Decode : List Nat → Option (List Char)
  | [] => some []
  | b :: rest =>
    if b < 0x80 then (utf8Decode rest).map (Char.ofNat b :: ·)
    else if 0xC2 ≤ b ∧ b ≤ 0xDF then
      match rest with
      | c1 :: r =>
        if 0x80 ≤ c1 ∧ c1 < 0xC0 then
          (utf8Decode r).map (Char.ofNat ((b - 0xC0) * 64 + (c1 - 0x80)) :: ·)
        else none
      | [] => none
    else if 0xE0 ≤ b ∧ b ≤ 0xEF then
      match rest with
      | c1 :: c2 :: r =>
        if 0x80 ≤ c1 ∧ c1 < 0xC0 ∧ 0x80 ≤ c2 ∧ c2 < 0xC0 then
          let cp := (b - 0xE0) * 4096 + (c1 - 0x80) * 64 + (c2 - 0x80)
          if 0x800 ≤ cp ∧ (cp < 0xD800 ∨ 0xDFFF < cp) then
            (utf8Decode r).map (Char.ofNat cp :: ·)
          else none
        else none
      | _ => none
    else if 0xF0 ≤ b ∧ b ≤ 0xF4 then
      match rest with
      | c1 :: c2 :: c3 :: r =>
        if 0x80 ≤ c1 ∧ c1 < 0xC0 ∧ 0x80 ≤ c2 ∧ c2 < 0xC0 ∧ 0x80 ≤ c3 ∧ c3 < 0xC0 then
          let cp := (b - 0xF0) * 0x40000 + (c1 - 0x80) * 4096 + (c2 - 0x80) * 64 + (c3 - 0x80)
          if 0x10000 ≤ cp ∧ cp ≤ 0x10FFFF then
            (utf8Decode r).map (Char.ofNat cp :: ·)
          else none
        else none
      | _ => none
    else none

def codecDecode : Codec → List Nat → Option (List Char)
  | .ascii, bs => if bs.all (· < 0x80) then some (bs.map Char.ofNat) else none
  | .utf8, bs => utf8Decode bs
  | .latin1, bs => if bs.all (· < 0x100) then some (bs.map Char.ofNat) else none

/-- Header.append inside make_header: a str chunk with no charset is
verified to be us-ascii encodable; a bytes chunk is decoded with its
charset (None meaning the default us-ascii).  The result is the chunk
text together with the canonical charset name. -/
def appendChunk : DecodedText × Option (List Char) → Option (List Char × List Char)
  | (.inl s, none) =>
    if s.all (fun c => c.toNat < 0x80) then some (s, "us-ascii".data) else none
  | (.inl s, some cs) =>
    match codecFor cs with
    | some (c, nm) =>
      match c with
      | .ascii => if s.all (fun x => x.toNat < 0x80) then some (s, nm) else none
      | .utf8 => some (s, nm)
      | .latin1 => if s.all (fun x => x.toNat < 0x100) then some (s, nm) else none
    | none => none
  | (.inr bs, none) => (codecDecode .ascii bs).map (fun t => (t, "us-ascii".data))
  | (.inr bs, some cs) =>
    match codecFor cs with
    | some (c, nm) => (codecDecode c bs).map (fun t => (t, nm))
    | none => none

/-- The _nonctext test of Header.__str__ on a single character. -/
def nonctext (c : Char) : Bool :=
  isPySpace c ∨ c = '(' ∨ c = ')' ∨ c = '\\'

def headHasSpace : List Char → Bool
  | [] => false
  | c :: _ => nonctext c

def lastHasSpace (s : List Char) : Bool :=
  match s.getLast? with
  | none => false
  | some c => nonctext c

/-- Header.__str__: join the chunks, inserting a single space at a
boundary between encoded and unencoded text when the unencoded side
does not already provide one. -/
def headerStrGo : List (List Char × List Char) → Bool → Option (List Char) → Bool → List Char
  | [], _, _, _ => []
  | (s, cs) :: rest, started, lastcs, lastspace =>
    let nextcs0 : Option (List Char) := some cs
    let usa := fun (o : Option (List Char)) => o = none ∨ o = some "us-ascii".data
    let step :=
      if started then
        if ¬ usa lastcs then
          if usa nextcs0 ∧ ¬ (headHasSpace s = true) then ((([' '] : List Char)), none)
          else (([] : List Char), nextcs0)
        else if ¬ usa nextcs0 ∧ ¬ (lastspace = true) then ((([' '] : List Char)), nextcs0)
        else (([] : List Char), nextcs0)
      else (([] : List Char), nextcs0)
    step.1 ++ s ++ headerStrGo rest true step.2 (lastHasSpace s)

def headerStr (chunks : List (List Char × List Char)) : List Char :=
  headerStrGo chunks false none false

/-- str(make_header(decode_header(text))); None is the exception path
that the try/except in normalize turns into the raw-text fallback. -/
def decodeMakeHeaderStr (s : List Char) : Option (List Char) :=
  match decode_header_model s with
  | none => none
  | some chunks =>
    match chunks.mapM appendChunk with
    | none => none
    | some hchunks => some (headerStr hchunks)

/-! ### normalize and hash_key -/

/-- normalize from the source: decode RFC 2047 encoded words (falling
back to the raw text if decoding raises), then collapse whitespace runs
to single spaces and trim.  The None/bytes branches of the Python
function are for robustness only; every call site passes str. -/
def normalize (s : String) : String :=
  let t := (decodeMakeHeaderStr s.data).getD s.data
  String.mk (joinSpace (pySplitWs (pyStrip t)))

/-- hash_key from the source.  The value is the basis string fed to
SHA-256; the digest is a fixed deterministic function of it, so basis
equality coincides with fingerprint equality (collisions being an
accepted risk per the spec, not modelled behaviour). -/
def hash_key (msgid date from_ to_ subject : String) (size : Nat) : String :=
  if msgid ≠ "" then
    "MID:" ++ pyLower (normalize msgid)
  else
    "F:" ++ pyLower (normalize from_) ++ "|" ++
    ("T:" ++ pyLower (normalize to_)) ++ "|" ++
    ("S:" ++ pyLower (normalize subject)) ++ "|" ++
    ("D:" ++ normalize date) ++ "|" ++
    ("Z:" ++ String.mk (natToStr size))

/-! ### Chunking -/

/-- chunk_iter / _chunks from the source: consecutive slices of the
list, each of the given size except a possibly smaller final one.
Fuel-structural so it reduces in the kernel; for size 0 the Python
original raises ValueError (range step 0), the model returns no
chunks, and every theorem about it assumes a positive size. -/
def chunkIterAux : Nat → List α → Nat → List (List α)
  | 0, _, _ => []
  | _, [], _ => []
  | fuel + 1, l, size =>
    if size = 0 then [] else l.take size :: chunkIterAux fuel (l.drop size) size

def chunk_iter (l : List α) (size : Nat) : List (List α) :=
  chunkIterAux l.length l size

/-! ### FETCH response parsing -/

/-- extract_uid_and_size from the source: replace parentheses by
spaces, split on whitespace, and scan the tokens for "UID" and
"RFC822.SIZE" each followed by an integer (a later occurrence
overwrites an earlier one, and an unparsable integer is ignored). -/
def extractScan : List (List Char) → Option Nat × Option Nat → Option Nat × Option Nat
  | [], st => st
  | [_], st => st
  | t :: next :: rest, (uid, size) =>
    let uid2 := if t = "UID".data then (pyParseNat next).elim uid some else uid
    let size2 := if t = "RFC822.SIZE".data then (pyParseNat next).elim size some else size
    extractScan (next :: rest) (uid2, size2)

def extract_uid_and_size (meta : List Char) : Option Nat × Option Nat :=
  extractScan (pySplitWs (pyReplace (pyReplace meta '(' [] [' ']) ')' [] [' '])) (none, none)

/-- One entry of the data list of an imaplib FETCH response: a tuple
whose payload second component may or may not be bytes, or any other
entry shape (plain bytes line, closing parenthesis, ...), which
filter_undeleted skips. -/
inductive DataItem where
  | pair (meta : List Char) (payload : Option (List Char))
  | line (raw : List Char)
deriving DecidableEq, Repr

/-- The per-item body of the filter_undeleted loop: parse the UID out
of the meta string (with RFC822.SIZE masked out first), read the
deletion flag as a substring test on the payload bytes, and keep the
UID when it parsed truthy and the flag is absent. -/
def undeletedUidOf : DataItem → Option Nat
  | .line _ => none
  | .pair meta payload =>
    let uid := (extract_uid_and_size
      (pyReplace meta 'R' "FC822.SIZE".data ['X'])).1
    let flags := payload.getD []
    let deleted := containsSub flags "\\Deleted".data
    match uid with
    | some u => if u ≠ 0 ∧ ¬ deleted then some u else none
    | none => none

/-- filter_undeleted from the source, with the session FETCH modelled
as an oracle from the requested UID sub-chunk to a response: none is a
non-OK status (the loop silently skips the sub-chunk), some data is an
OK response whose items are parsed one by one. -/
def filter_undeleted (fetchFlags : List Nat → Option (List DataItem))
    (uids : List Nat) (fetch_flags_chunk : Nat) : List Nat :=
  (chunk_iter uids fetch_flags_chunk).foldl
    (fun remain part =>
      match fetchFlags part with
      | none => remain
      | some data => remain ++ data.filterMap undeletedUidOf)
    []

/-! ### Server model -/

/-- A message as the pipeline sees it after fetch_headers_sizes and
parse_headers: UID, the five header fields, the reported size, and the
server-side deletion flag. -/
structure Msg where
  uid : Nat
  msgid : String
  date : String
  from_ : String
  to_ : String
  subject : String
  size : Nat
  deleted : Bool
deriving DecidableEq, Repr

abbrev Server := List Msg

/-- STORE +FLAGS.SILENT (\Deleted) applied to a UID set. -/
def setDeleted (sv : Server) (uids : List Nat) : Server :=
  sv.map (fun m => if m.uid ∈ uids then { m with deleted := true } else m)

/-- EXPUNGE: permanently remove every message flagged \Deleted. -/
def expungeServer (sv : Server) : Server :=
  sv.filter (fun m => ¬ m.deleted)

/-- The response of the modelled server to a UID FETCH (...) of a
batch: the messages whose UID is in the batch, in mailbox order. -/
def fetchBatch (sv : Server) (batch : List Nat) : List Msg :=
  sv.filter (fun m => m.uid ∈ batch)

/-- A fetched summary with the Deleted flag blanked out: the
classification pass reads the header fields and the UID of a summary
but never its flag, so two servers that agree on fetched summaries up
to this blanking drive the classification identically. -/
def eraseFlag (m : Msg) : Msg :=
  { m with deleted := false }

/-- The response of the modelled server to a UID FETCH (UID FLAGS) of
a sub-chunk: one (meta, flags) item per requested UID that exists,
with the UID printed in the meta string and the flag list in the
payload bytes, which is the shape the filter_undeleted parser reads. -/
def serverFlagsResp (sv : Server) (part : List Nat) : Option (List DataItem) :=
  some (part.filterMap fun u =>
    (sv.find? (fun m => m.uid = u)).map fun m =>
      DataItem.pair ("(UID ".data ++ natToStr u ++ ")".data)
        (some (if m.deleted then "(\\Deleted)".data else "()".data)))

/-! ### Digest store model (sqlite3 seen_hashes table) -/

/-- One row of seen_hashes; the primary key is (mailbox, digest). -/
structure Row where
  mailbox : String
  digest : String
  keep_uid : Nat
deriving DecidableEq, Repr

/-- The connection state: rows visible to the current transaction, and
rows durably on disk (the last committed state). -/
structure Db where
  rows : List Row
  committed : List Row
deriving DecidableEq, Repr

/-- SELECT keep_uid FROM seen_hashes WHERE mailbox=? AND digest=?. -/
def lookupRows (rows : List Row) (mb d : String) : Option Nat :=
  (rows.find? (fun r => r.mailbox = mb ∧ r.digest = d)).map Row.keep_uid

def dbLookup (db : Db) (mb d : String) : Option Nat :=
  lookupRows db.rows mb d

/-- INSERT OR REPLACE INTO seen_hashes: any row with the same primary
key is replaced. -/
def dbInsert (db : Db) (mb d : String) (u : Nat) : Db :=
  { db with rows := ⟨mb, d, u⟩ :: db.rows.filter (fun r => ¬ (r.mailbox = mb ∧ r.digest = d)) }

/-- db.commit(): the visible rows become durable. -/
def dbCommit (db : Db) : Db :=
  { db with committed := db.rows }

/-! ### Classification (the per-message body of the main loop) -/

inductive Criteria where
  | msgid_first
  | composite_only
deriving DecidableEq, Repr

/-- The digest computed for a message under the configured criteria
(composite_only passes an empty Message-ID to hash_key). -/
def digestOf (crit : Criteria) (m : Msg) : String :=
  match crit with
  | .composite_only => hash_key "" m.date m.from_ m.to_ m.subject m.size
  | .msgid_first => hash_key m.msgid m.date m.from_ m.to_ m.subject m.size

/-- The mutable state of the classification pass: the store connection,
the running kept counters, and the duplicate UIDs collected so far. -/
structure ClassSt where
  db : Db
  kept_new : Nat
  kept_existing : Nat
  delete_uids : List Nat
deriving Repr

/-- One iteration of the classification loop of main: look the digest
up; absent means insert and count kept-new, the recorded keeper itself
means count kept-existing, any other keeper means collect the UID for
deletion. -/
def classifyOne (mb : String) (crit : Criteria) (st : ClassSt) (m : Msg) : ClassSt :=
  let d := digestOf crit m
  match dbLookup st.db mb d with
  | none =>
    { st with db := dbInsert st.db mb d m.uid, kept_new := st.kept_new + 1 }
  | some keep =>
    if keep = m.uid then { st with kept_existing := st.kept_existing + 1 }
    else { st with delete_uids := st.delete_uids ++ [m.uid] }

def classifyList (mb : String) (crit : Criteria) (st : ClassSt) (ms : List Msg) : ClassSt :=
  ms.foldl (classifyOne mb crit) st

/-! ### Session retry model (safe_uid / noop) -/

/-- The outcome of one underlying imaplib call: a normal return, an
IMAP4.abort exception, or any other exception (IMAP4.error,
RuntimeError, ...), which the retry wrappers do not catch. -/
inductive ImapOutcome (α : Type) where
  | ok (r : α)
  | abort
  | err
deriving DecidableEq, Repr

/-- What one call of ImapSession.safe_uid does, given the outcome of
the first underlying M.uid call, whether connect() succeeds, and the
outcome of the retried M.uid call: the returned-or-raised outcome, the
number of M.uid invocations, and the number of connect() cycles. -/
def safe_uid (first second : ImapOutcome α) (reconnectOk : Bool) :
    ImapOutcome α × Nat × Nat :=
  match first with
  | .ok r => (.ok r, 1, 0)
  | .err => (.err, 1, 0)
  | .abort => if reconnectOk then (second, 2, 1) else (.err, 2, 1)

/-- ImapSession.noop has the same try/except-abort/reconnect/retry
shape as safe_uid (the command result is discarded). -/
def sessionNoop (first second : ImapOutcome Unit) (reconnectOk : Bool) :
    ImapOutcome Unit × Nat × Nat :=
  match first with
  | .ok _ => (.ok (), 1, 0)
  | .err => (.err, 1, 0)
  | .abort => if reconnectOk then (second, 2, 1) else (.err, 2, 1)

/-! ### The pipeline (main) as a trace-producing state machine -/

/-- The protocol commands and store commits main issues, in order.
store carries the UID sub-chunk of one STORE +FLAGS.SILENT command and
whether the server applied it (false models the sub-chunk whose STORE
aborted even after the one reconnect inside safe_uid, so the abort
escapes to the handler in main). Events issued while handling batch b
carry b; the final expunge after the loop carries no batch. -/
inductive Event where
  | fetch (batch : Nat) (uids : List Nat)
  | commit (batch : Nat)
  | store (batch : Nat) (uids : List Nat) (applied : Bool)
  | fetchFlags (batch : Nat) (uids : List Nat)
  | expunge (batch : Nat)
  | expungeFinal
deriving DecidableEq, Repr

/-- The batch index an event was issued for. -/
def Event.tag : Event → Option Nat
  | .fetch b _ => some b
  | .commit b => some b
  | .store b _ _ => some b
  | .fetchFlags b _ => some b
  | .expunge b => some b
  | .expungeFinal => none

/-- Is the event a destructive remote operation issued for batch b
(a delete-mark STORE, applied or attempted, or a mid-run expunge)? -/
def destructiveOf (b : Nat) : Event → Bool
  | .store b2 _ _ => b2 = b
  | .expunge b2 => b2 = b
  | _ => false

/-- The result of mark_delete over the sub-chunks of one UID list:
final server state, events issued, remaining fault script, and whether
an abort escaped (in which case the remaining sub-chunks were not
issued and the aborted sub-chunk was not applied). The fault script
lists, per STORE sub-chunk command, whether the command ultimately
succeeds (possibly after the one reconnect hidden inside safe_uid);
an exhausted script means success. -/
def markDeleteGo (b : Nat) : Server → List (List Nat) → List Bool →
    Server × List Event × List Bool × Bool
  | sv, [], script => (sv, [], script, false)
  | sv, part :: rest, script =>
    let ok := script.headD true
    let script2 := script.tail
    if ok then
      let r := markDeleteGo b (setDeleted sv part) rest script2
      (r.1, .store b part true :: r.2.1, r.2.2.1, r.2.2.2)
    else
      (sv, [.store b part false], script2, true)

/-- mark_delete from the source (the noop keep-alives and the sequence
string formatting have no further observable effect and are elided). -/
def mark_delete (b : Nat) (sv : Server) (uids : List Nat) (store_chunk : Nat)
    (script : List Bool) : Server × List Event × List Bool × Bool :=
  markDeleteGo b sv (chunk_iter uids store_chunk) script

/-- The configuration of one run (the arguments main reads). -/
structure Args where
  mailbox : String
  criteria : Criteria
  chunk : Nat
  store_chunk : Nat
  fetch_flags_chunk : Nat
  dry_run : Bool
  expunge_interval : Nat
deriving Repr

/-- The run state threaded through the batch loop of main. crashed
models an exception escaping the loop (a second abort during the
resume marking pass): the remaining batches and the final expunge are
skipped, as main has no handler for it. -/
structure RunSt where
  db : Db
  server : Server
  kept_new : Nat
  kept_existing : Nat
  dupes_marked : Nat
  script : List Bool
  crashed : Bool
deriving Repr

/-- The mid-run expunge step at the end of one batch iteration. -/
def expungeStep (a : Args) (b : Nat) (st : RunSt) (evs : List Event) :
    RunSt × List Event :=
  if a.expunge_interval ≠ 0 ∧ b % a.expunge_interval = 0 ∧ ¬ a.dry_run then
    ({ st with server := expungeServer st.server }, evs ++ [.expunge b])
  else (st, evs)

/-- One iteration of the batch loop of main: fetch the summaries,
classify them against the store, commit, then delete-mark collected
duplicates (with the abort handler that reconnects, rechecks flags via
filter_undeleted and resumes on the still-unmarked subset), then the
periodic expunge. -/
def processBatch (a : Args) (b : Nat) (st : RunSt) (batch : List Nat) :
    RunSt × List Event :=
  let headers := fetchBatch st.server batch
  let c := classifyList a.mailbox a.criteria
    ⟨st.db, st.kept_new, st.kept_existing, []⟩ headers
  let db2 := dbCommit c.db
  let evs0 : List Event := [.fetch b batch, .commit b]
  let st2 : RunSt := { st with db := db2, kept_new := c.kept_new,
                               kept_existing := c.kept_existing }
  if c.delete_uids = [] then
    expungeStep a b st2 evs0
  else if a.dry_run then
    expungeStep a b st2 evs0
  else
    let r1 := mark_delete b st2.server c.delete_uids a.store_chunk st2.script
    if r1.2.2.2 = false then
      let st3 := { st2 with
        server := r1.1, script := r1.2.2.1,
        dupes_marked := st2.dupes_marked + c.delete_uids.length }
      expungeStep a b st3 (evs0 ++ r1.2.1)
    else
      let to_retry :=
        filter_undeleted (serverFlagsResp r1.1) c.delete_uids a.fetch_flags_chunk
      let evsF := (chunk_iter c.delete_uids a.fetch_flags_chunk).map
        (fun part => Event.fetchFlags b part)
      if to_retry = [] then
        let st3 := { st2 with server := r1.1, script := r1.2.2.1 }
        expungeStep a b st3 (evs0 ++ r1.2.1 ++ evsF)
      else
        let r2 := mark_delete b r1.1 to_retry a.store_chunk r1.2.2.1
        if r2.2.2.2 = false then
          let st3 := { st2 with
            server := r2.1, script := r2.2.2.1,
            dupes_marked := st2.dupes_marked + to_retry.length }
          expungeStep a b st3 (evs0 ++ r1.2.1 ++ evsF ++ r2.2.1)
        else
          ({ st2 with server := r2.1, script := r2.2.2.1, crashed := true },
           evs0 ++ r1.2.1 ++ evsF ++ r2.2.1)

/-- The batch loop of main (batch_idx is 1-based). -/
def runBatches (a : Args) : Nat → RunSt → List (List Nat) → RunSt × List Event
  | _, st, [] => (st, [])
  | idx, st, batch :: rest =>
    if st.crashed then (st, [])
    else
      let r1 := processBatch a (idx + 1) st batch
      let r2 := runBatches a (idx + 1) r1.1 rest
      (r2.1, r1.2 ++ r2.2)

/-- main from the search result onwards: chunk the candidate UID list,
run the batch loop, and issue the final expunge unless in dry-run mode
(or unless an exception escaped the loop). -/
def runMain (a : Args) (uids : List Nat) (server : Server) (db0 : Db)
    (script : List Bool) : RunSt × List Event :=
  let st0 : RunSt := ⟨db0, server, 0, 0, 0, script, false⟩
  let r := runBatches a 0 st0 (chunk_iter uids a.chunk)
  if ¬ a.dry_run ∧ r.1.crashed = false then
    ({ r.1 with server := expungeServer r.1.server }, r.2 ++ [.expungeFinal])
  else r

/-! ### Derived notions used in the specifications -/

/-- The primary key of a seen_hashes row. -/
def rowKey (r : Row) : String × String := (r.mailbox, r.digest)

/-- The deletion flag the modelled server holds for a UID (none when no
such message exists). -/
def flagOf (sv : Server) (u : Nat) : Option Bool :=
  (sv.find? (fun m => m.uid = u)).map Msg.deleted

/-- UID u is present and not flagged deleted, and parses truthily
(nonzero), which is what one filter_undeleted item test amounts to. -/
def undeletedPred (sv : Server) (u : Nat) : Bool :=
  decide (u ≠ 0) && ((sv.find? (fun m => m.uid = u)).elim false (fun m => ! m.deleted))

/-- Every destructive event for batch b in the trace is preceded by the
digest-store commit of batch b. -/
def CommitBefore (b : Nat) (evs : List Event) : Prop :=
  ∀ l1 ev l2, evs = l1 ++ ev :: l2 → destructiveOf b ev = true → Event.commit b ∈ l1

/-! ## Theorems -/

/-! ### String plumbing -/

theorem dataInj {a b : String} (h : a.data = b.data) : a = b := by
  cases a
  cases b
  exact congrArg String.mk h

theorem data_append (a b : String) : (a ++ b).data = a.data ++ b.data := rfl

theorem append_cancel_right2 {α : Type} {a b x : List α} (h : a ++ x = b ++ x) : a = b := by
  have hl : a.length = b.length := by
    have h2 := congrArg List.length h
    simp only [List.length_append] at h2
    omega
  exact (List.append_inj h hl).1

theorem append_cancel_left2 {α : Type} {p a b : List α} (h : p ++ a = p ++ b) : a = b :=
  (List.append_inj h rfl).2

/-! ### Decimal printing and parsing round-trip -/

theorem natToDigitsAux_spec : ∀ n fuel acc, n < 10 ^ (fuel + 1) →
    natToDigitsAux (fuel + 1) n acc = natToDigits n ++ acc := by
  intro n
  induction n using Nat.strong_induction_on with
  | _ n ih =>
    intro fuel acc h
    by_cases h10 : n < 10
    · simp [natToDigitsAux, natToDigits, h10]
    · have hge : 10 ≤ n := Nat.le_of_not_lt h10
      have hf : 1 ≤ fuel := by
        by_contra hf0
        have : fuel = 0 := by omega
        subst this
        simp at h
        omega
      obtain ⟨f2, rfl⟩ : ∃ f2, fuel = f2 + 1 := ⟨fuel - 1, by omega⟩
      have hdiv : n / 10 < 10 ^ (f2 + 1) := by
        rw [Nat.div_lt_iff_lt_mul (by omega)]
        calc n < 10 ^ (f2 + 1 + 1) := h
        _ = 10 ^ (f2 + 1) * 10 := by ring
      have hdiv2 : n / 10 < 10 ^ (n - 1 + 1) := by
        have h1 : n / 10 < n := Nat.div_lt_self (by omega) (by omega)
        have h2 : n < 10 ^ n := Nat.lt_pow_self (by omega) n
        have h3 : n - 1 + 1 = n := by omega
        rw [h3]
        omega
      have step1 : natToDigitsAux (f2 + 1 + 1) n acc
          = natToDigitsAux (f2 + 1) (n / 10) (n % 10 :: acc) := by
        simp [natToDigitsAux, h10]
      have step2 : natToDigits n = natToDigits (n / 10) ++ [n % 10] := by
        have h3 : n - 1 + 1 = n := by omega
        unfold natToDigits
        rw [show n + 1 = (n - 1 + 1) + 1 from by omega]
        rw [show natToDigitsAux (n - 1 + 1 + 1) n [] =
              natToDigitsAux (n - 1 + 1) (n / 10) [n % 10] from by simp [natToDigitsAux, h10]]
        exact ih (n / 10) (Nat.div_lt_self (by omega) (by omega)) (n - 1) [n % 10] hdiv2
      rw [step1, ih (n / 10) (Nat.div_lt_self (by omega) (by omega)) f2 _ hdiv, step2,
        List.append_assoc, List.singleton_append]

theorem natToDigits_lt10 {n : Nat} (h : n < 10) : natToDigits n = [n] := by
  simp [natToDigits, natToDigitsAux, h]

theorem natToDigits_ge10 {n : Nat} (h : 10 ≤ n) : natToDigits n = natToDigits (n / 10) ++ [n % 10] := by
  have hdiv2 : n / 10 < 10 ^ (n - 1 + 1) := by
    have h1 : n / 10 < n := Nat.div_lt_self (by omega) (by omega)
    have h2 : n < 10 ^ n := Nat.lt_pow_self (by omega) n
    have h3 : n - 1 + 1 = n := by omega
    rw [h3]
    omega
  unfold natToDigits
  rw [show n + 1 = (n - 1 + 1) + 1 from by omega]
  rw [show natToDigitsAux (n - 1 + 1 + 1) n [] =
        natToDigitsAux (n - 1 + 1) (n / 10) [n % 10] from by
      simp [natToDigitsAux, show ¬ n < 10 from by omega]]
  exact natToDigitsAux_spec (n / 10) (n - 1) [n % 10] hdiv2

theorem natToDigits_ne_nil (n : Nat) : natToDigits n ≠ [] := by
  by_cases h : n < 10
  · simp [natToDigits_lt10 h]
  · rw [natToDigits_ge10 (show 10 ≤ n from by omega)]
    simp

theorem natToDigits_bound (n : Nat) : ∀ d ∈ natToDigits n, d < 10 := by
  induction n using Nat.strong_induction_on with
  | _ n ih =>
    by_cases h : n < 10
    · simp [natToDigits_lt10 h]
      omega
    · rw [natToDigits_ge10 (by omega)]
      intro d hd
      rcases List.mem_append.1 hd with h1 | h1
      · exact ih (n / 10) (Nat.div_lt_self (by omega) (by omega)) d h1
      · simp at h1
        subst h1
        exact Nat.mod_lt _ (by omega)

theorem natToDigits_val (n : Nat) :
    (natToDigits n).foldl (fun a d => 10 * a + d) 0 = n := by
  induction n using Nat.strong_induction_on with
  | _ n ih =>
    by_cases h : n < 10
    · simp [natToDigits_lt10 h]
    · rw [natToDigits_ge10 (by omega), List.foldl_append,
        ih (n / 10) (Nat.div_lt_self (by omega) (by omega))]
      simp
      omega

theorem digitChar_toNat : ∀ d, d < 10 → (digitChar d).toNat = 48 + d := by decide

theorem digitChar_isDigit : ∀ d, d < 10 → (digitChar d).isDigit = true := by decide

theorem natToStr_all_digit (n : Nat) : (natToStr n).all Char.isDigit = true := by
  simp only [natToStr, List.all_eq_true]
  intro c hc
  obtain ⟨d, hd, rfl⟩ := List.mem_map.1 hc
  exact digitChar_isDigit d (natToDigits_bound n d hd)

theorem pyParseNat_natToStr (n : Nat) : pyParseNat (natToStr n) = some n := by
  have hfold : (natToDigits n).foldl (fun a d => 10 * a + ((digitChar d).toNat - 48)) 0
      = (natToDigits n).foldl (fun a d => 10 * a + d) 0 := by
    apply List.foldl_ext
    intro a x hx
    rw [digitChar_toNat x (natToDigits_bound n x hx)]
    omega
  unfold pyParseNat
  rw [if_pos]
  · congr 1
    unfold natToStr
    rw [List.foldl_map, hfold]
    exact natToDigits_val n
  · constructor
    · simp [natToStr]
      exact natToDigits_ne_nil n
    · exact natToStr_all_digit n

theorem natToStr_inj {a b : Nat} (h : natToStr a = natToStr b) : a = b := by
  have := congrArg pyParseNat h
  rw [pyParseNat_natToStr, pyParseNat_natToStr] at this
  exact Option.some.inj this

/-! ### Claim C5 -/

/-- Claim C5: with a non-empty stable identifier (preferStableId mode,
criteria msgid_first), the fingerprint is a function of the normalized,
lower-cased identifier alone: any two messages with non-empty raw
identifiers whose normalized lower-cased identifiers agree receive the
same fingerprint, whatever their From, To, Subject, Date and Size are.
Case, surrounding whitespace and encoded-word wire changes to the
identifier leave the normalized lower-cased identifier unchanged, hence
the fingerprint (exercised concretely in the witness). -/
theorem claim_C5 (m1 m2 : Msg) (h1 : m1.msgid ≠ "") (h2 : m2.msgid ≠ "")
    (h : pyLower (normalize m1.msgid) = pyLower (normalize m2.msgid)) :
    digestOf .msgid_first m1 = digestOf .msgid_first m2 := by
  unfold digestOf hash_key
  rw [if_pos h1, if_pos h2, h]

theorem claim_C5_witness :
    digestOf .msgid_first ⟨1, "  ABC@x  ", "d1", "f1", "t1", "s1", 10, false⟩
      = digestOf .msgid_first ⟨2, "=?utf-8?q?abc@X?=", "d2", "f2", "t2", "s2", 20, true⟩ :=
  claim_C5 _ _ (by decide) (by decide) (by decide)

/-! ### The two branches of hash_key -/

theorem hash_key_pos {m : String} (hm : m ≠ "") (d f t s : String) (z : Nat) :
    hash_key m d f t s z = "MID:" ++ pyLower (normalize m) := by
  unfold hash_key
  rw [if_pos hm]

theorem hash_key_empty (d f t s : String) (z : Nat) :
    hash_key "" d f t s z =
      "F:" ++ pyLower (normalize f) ++ "|" ++
      ("T:" ++ pyLower (normalize t)) ++ "|" ++
      ("S:" ++ pyLower (normalize s)) ++ "|" ++
      ("D:" ++ normalize d) ++ "|" ++
      ("Z:" ++ String.mk (natToStr z)) := by
  unfold hash_key
  rw [if_neg]
  simp

theorem dataMk (l : List Char) : (String.mk l).data = l := rfl

theorem dataLitF : ("F:" : String).data = ['F', ':'] := rfl
theorem dataLitT : ("T:" : String).data = ['T', ':'] := rfl
theorem dataLitS : ("S:" : String).data = ['S', ':'] := rfl
theorem dataLitD : ("D:" : String).data = ['D', ':'] := rfl
theorem dataLitZ : ("Z:" : String).data = ['Z', ':'] := rfl
theorem dataLitBar : ("|" : String).data = ['|'] := rfl
theorem dataLitMID : ("MID:" : String).data = ['M', 'I', 'D', ':'] := rfl

/-! ### Claim C6 (corrected): the Date field is not lower-cased -/

/-- Counterexample to claim C6 as stated: if the Date field were
lower-cased before hashing (as the claim asserts for every textual
field), these two composite fingerprints, which differ only in the
letter-casing of the Date field, would be equal; the code produces
different basis strings (D:MON versus D:mon), hence different
fingerprints. -/
theorem claim_C6_counterexample :
    hash_key "" "MON" "" "" "" 0 ≠ hash_key "" "mon" "" "" "" 0 := by decide

/-- Claim C6 (amended): every textual field entering the basis string
is normalized by decoding encoded words, collapsing whitespace runs and
trimming before hashing, and every such field except Date (identifier,
From, To, Subject) is additionally lower-cased; the Date field keeps
its letter-casing.  Formally, the fingerprint depends only on the
lower-cased normalized identifier, From, To and Subject, the normalized
(not lower-cased) Date, the size, and emptiness of the raw identifier
(which selects the basis shape). -/
theorem claim_C6_amended (m1 d1 f1 t1 s1 : String) (z1 : Nat)
    (m2 d2 f2 t2 s2 : String) (z2 : Nat)
    (hm0 : m1 = "" ↔ m2 = "")
    (hm : pyLower (normalize m1) = pyLower (normalize m2))
    (hd : normalize d1 = normalize d2)
    (hf : pyLower (normalize f1) = pyLower (normalize f2))
    (ht : pyLower (normalize t1) = pyLower (normalize t2))
    (hs : pyLower (normalize s1) = pyLower (normalize s2))
    (hz : z1 = z2) :
    hash_key m1 d1 f1 t1 s1 z1 = hash_key m2 d2 f2 t2 s2 z2 := by
  by_cases hm1 : m1 = ""
  · have hm2 : m2 = "" := hm0.mp hm1
    rw [hm1, hm2, hash_key_empty, hash_key_empty, hd, hf, ht, hs, hz]
  · have hm2 : m2 ≠ "" := fun hh => hm1 (hm0.mpr hh)
    rw [hash_key_pos hm1, hash_key_pos hm2, hm]

theorem claim_C6_amended_witness :
    hash_key "=?utf-8?q?MsgOne?=" "Mon,  1  Jan" "A" " b " "Sub ject" 7
      = hash_key " msgone " "Mon, 1 Jan" "a" "b" "SUB JECT" 7 :=
  claim_C6_amended _ _ _ _ _ _ _ _ _ _ _ _ (by decide) (by decide) (by decide)
    (by decide) (by decide) (by decide) (by decide)

/-! ### Claim C7 -/

/-- Claim C7: with an empty or missing stable identifier the
fingerprint is computed from the tagged composite of the normalized
From, To, Subject, Date and Size fields in fixed order:
(1) an empty identifier under msgid_first falls through to exactly the
composite_only fingerprint;
(2) the composite basis is never the identifier-path basis of any
identifier (in particular not of an empty identifier hashed alone);
(3)-(7) the fingerprint is sensitive to each of the five fields
independently: changing exactly one of the (normalized, and for the
textual non-Date fields lower-cased) field values changes the
fingerprint. -/
theorem claim_C7 :
    (∀ m : Msg, m.msgid = "" → digestOf .msgid_first m = digestOf .composite_only m)
    ∧ (∀ (d f t s : String) (z : Nat) (mid d2 f2 t2 s2 : String) (z2 : Nat), mid ≠ "" →
        hash_key "" d f t s z ≠ hash_key mid d2 f2 t2 s2 z2)
    ∧ (∀ (d f t s : String) (z : Nat) (f2 : String),
        pyLower (normalize f) ≠ pyLower (normalize f2) →
        hash_key "" d f t s z ≠ hash_key "" d f2 t s z)
    ∧ (∀ (d f t s : String) (z : Nat) (t2 : String),
        pyLower (normalize t) ≠ pyLower (normalize t2) →
        hash_key "" d f t s z ≠ hash_key "" d f t2 s z)
    ∧ (∀ (d f t s : String) (z : Nat) (s2 : String),
        pyLower (normalize s) ≠ pyLower (normalize s2) →
        hash_key "" d f t s z ≠ hash_key "" d f t s2 z)
    ∧ (∀ (d f t s : String) (z : Nat) (d2 : String),
        normalize d ≠ normalize d2 →
        hash_key "" d f t s z ≠ hash_key "" d2 f t s z)
    ∧ (∀ (d f t s : String) (z z2 : Nat), z ≠ z2 →
        hash_key "" d f t s z ≠ hash_key "" d f t s z2) := by
  refine ⟨?_, ?_, ?_, ?_, ?_, ?_, ?_⟩
  · intro m hm
    unfold digestOf
    rw [hm]
  · intro d f t s z mid d2 f2 t2 s2 z2 hmid h
    rw [hash_key_empty, hash_key_pos hmid] at h
    have h6 : (("F:" ++ pyLower (normalize f) ++ "|" ++
        ("T:" ++ pyLower (normalize t)) ++ "|" ++
        ("S:" ++ pyLower (normalize s)) ++ "|" ++
        ("D:" ++ normalize d) ++ "|" ++
        ("Z:" ++ String.mk (natToStr z))) : String).data.head? =
        (("MID:" ++ pyLower (normalize mid)) : String).data.head? :=
      congrArg (fun x : String => x.data.head?) h
    have h4 : (("MID:" ++ pyLower (normalize mid)) : String).data.head? = some 'M' := rfl
    have h5 : (("F:" ++ pyLower (normalize f) ++ "|" ++
        ("T:" ++ pyLower (normalize t)) ++ "|" ++
        ("S:" ++ pyLower (normalize s)) ++ "|" ++
        ("D:" ++ normalize d) ++ "|" ++
        ("Z:" ++ String.mk (natToStr z))) : String).data.head? = some 'F' := rfl
    rw [h4, h5] at h6
    exact absurd h6 (by decide)
  · intro d f t s z f2 hne h
    rw [hash_key_empty, hash_key_empty] at h
    have hd := congrArg String.data h
    simp only [data_append, dataMk, dataLitF, dataLitT, dataLitS, dataLitD, dataLitZ,
      dataLitBar, List.cons_append, List.nil_append, List.append_assoc] at hd
    simp only [List.cons.injEq, true_and] at hd
    exact hne (dataInj (append_cancel_right2 hd))
  · intro d f t s z t2 hne h
    rw [hash_key_empty, hash_key_empty] at h
    have hd := congrArg String.data h
    simp only [data_append, dataMk, dataLitF, dataLitT, dataLitS, dataLitD, dataLitZ,
      dataLitBar, List.cons_append, List.nil_append, List.append_assoc] at hd
    simp only [List.cons.injEq, true_and] at hd
    have hd2 := append_cancel_left2 hd
    simp only [List.cons.injEq, true_and] at hd2
    exact hne (dataInj (append_cancel_right2 hd2))
  · intro d f t s z s2 hne h
    rw [hash_key_empty, hash_key_empty] at h
    have hd := congrArg String.data h
    simp only [data_append, dataMk, dataLitF, dataLitT, dataLitS, dataLitD, dataLitZ,
      dataLitBar, List.cons_append, List.nil_append, List.append_assoc] at hd
    simp only [List.cons.injEq, true_and] at hd
    have hd2 := append_cancel_left2 hd
    simp only [List.cons.injEq, true_and] at hd2
    have hd3 := append_cancel_left2 hd2
    simp only [List.cons.injEq, true_and] at hd3
    exact hne (dataInj (append_cancel_right2 hd3))
  · intro d f t s z d2 hne h
    rw [hash_key_empty, hash_key_empty] at h
    have hd := congrArg String.data h
    simp only [data_append, dataMk, dataLitF, dataLitT, dataLitS, dataLitD, dataLitZ,
      dataLitBar, List.cons_append, List.nil_append, List.append_assoc] at hd
    simp only [List.cons.injEq, true_and] at hd
    have hd2 := append_cancel_left2 hd
    simp only [List.cons.injEq, true_and] at hd2
    have hd3 := append_cancel_left2 hd2
    simp only [List.cons.injEq, true_and] at hd3
    have hd4 := append_cancel_left2 hd3
    simp only [List.cons.injEq, true_and] at hd4
    exact hne (dataInj (append_cancel_right2 hd4))
  · intro d f t s z z2 hne h
    rw [hash_key_empty, hash_key_empty] at h
    have hd := congrArg String.data h
    simp only [data_append, dataMk, dataLitF, dataLitT, dataLitS, dataLitD, dataLitZ,
      dataLitBar, List.cons_append, List.nil_append, List.append_assoc] at hd
    simp only [List.cons.injEq, true_and] at hd
    have hd2 := append_cancel_left2 hd
    simp only [List.cons.injEq, true_and] at hd2
    have hd3 := append_cancel_left2 hd2
    simp only [List.cons.injEq, true_and] at hd3
    have hd4 := append_cancel_left2 hd3
    simp only [List.cons.injEq, true_and] at hd4
    have hd5 := append_cancel_left2 hd4
    simp only [List.cons.injEq, true_and] at hd5
    exact hne (natToStr_inj hd5)

theorem claim_C7_witness :
    digestOf .msgid_first ⟨9, "", "dd", "ff", "tt", "ss", 5, false⟩
      = digestOf .composite_only ⟨9, "", "dd", "ff", "tt", "ss", 5, false⟩
    ∧ hash_key "" "d" "f" "t" "s" 1 ≠ hash_key "<x@y>" "d" "f" "t" "s" 1
    ∧ hash_key "" "d" "f" "t" "s" 1 ≠ hash_key "" "d" "f9" "t" "s" 1
    ∧ hash_key "" "d" "f" "t" "s" 1 ≠ hash_key "" "d" "f" "t9" "s" 1
    ∧ hash_key "" "d" "f" "t" "s" 1 ≠ hash_key "" "d" "f" "t" "s9" 1
    ∧ hash_key "" "d" "f" "t" "s" 1 ≠ hash_key "" "d9" "f" "t" "s" 1
    ∧ hash_key "" "d" "f" "t" "s" 1 ≠ hash_key "" "d" "f" "t" "s" 2 :=
  ⟨claim_C7.1 _ (by decide),
   claim_C7.2.1 "d" "f" "t" "s" 1 "<x@y>" "d" "f" "t" "s" 1 (by decide),
   claim_C7.2.2.1 "d" "f" "t" "s" 1 "f9" (by decide),
   claim_C7.2.2.2.1 "d" "f" "t" "s" 1 "t9" (by decide),
   claim_C7.2.2.2.2.1 "d" "f" "t" "s" 1 "s9" (by decide),
   claim_C7.2.2.2.2.2.1 "d" "f" "t" "s" 1 "d9" (by decide),
   claim_C7.2.2.2.2.2.2 "d" "f" "t" "s" 1 2 (by decide)⟩

/-! ### Claim C4 -/

/-- Claim C4: for a command run through the session wrappers (safe_uid
for uid commands, noop for the keep-alive), a first outcome that is not
an abort is returned or raised as is, with a single underlying call and
no reconnect; an abort triggers exactly one reconnect and one retry,
whose outcome - success or failure - is returned or raised to the
caller as is; in every case at most two underlying calls and at most
one reconnect happen, so a failure of the retried command is never
retried again. -/
theorem claim_C4 (α : Type) (first second : ImapOutcome α) (fn sn : ImapOutcome Unit) :
    ((first = .abort → safe_uid first second true = (second, 2, 1))
      ∧ (first ≠ .abort →
          safe_uid first second true = (first, 1, 0)))
    ∧ ((safe_uid first second true).2.1 ≤ 2 ∧ (safe_uid first second true).2.2 ≤ 1)
    ∧ ((fn = .abort → sessionNoop fn sn true = (sn, 2, 1))
      ∧ (fn ≠ .abort → sessionNoop fn sn true = (.ok (), 1, 0) ∨ sessionNoop fn sn true = (.err, 1, 0)))
    ∧ ((sessionNoop fn sn true).2.1 ≤ 2 ∧ (sessionNoop fn sn true).2.2 ≤ 1) := by
  refine ⟨⟨?_, ?_⟩, ?_, ⟨?_, ?_⟩, ?_⟩
  · intro h
    subst h
    simp [safe_uid]
  · intro h
    cases first <;> simp_all [safe_uid]
  · cases first <;> simp [safe_uid]
  · intro h
    subst h
    simp [sessionNoop]
  · intro h
    cases fn <;> simp_all [sessionNoop]
  · cases fn <;> simp [sessionNoop]

theorem claim_C4_witness :
    safe_uid (ImapOutcome.abort : ImapOutcome Nat) .err true = (.err, 2, 1)
    ∧ sessionNoop .abort (.ok ()) true = (.ok (), 2, 1)
    ∧ safe_uid (ImapOutcome.ok 7) (.err : ImapOutcome Nat) true = (.ok 7, 1, 0) :=
  ⟨(claim_C4 Nat .abort .err .abort (.ok ())).1.1 rfl,
   (claim_C4 Nat .abort .err .abort (.ok ())).2.2.1.1 rfl,
   (claim_C4 Nat (.ok 7) .err .abort (.ok ())).1.2 (by simp)⟩

/-! ### chunk_iter facts -/

theorem chunkIterAux_nil (fuel size : Nat) : chunkIterAux fuel ([] : List α) size = [] := by
  cases fuel <;> rfl

theorem chunkIterAux_fuel : ∀ (fuel1 fuel2 : Nat) (l : List α) (size : Nat),
    l.length ≤ fuel1 → l.length ≤ fuel2 →
    chunkIterAux fuel1 l size = chunkIterAux fuel2 l size := by
  intro fuel1
  induction fuel1 with
  | zero =>
    intro fuel2 l size h1 _
    have : l = [] := List.eq_nil_of_length_eq_zero (by omega)
    subst this
    rw [chunkIterAux_nil, chunkIterAux_nil]
  | succ f ih =>
    intro fuel2 l size h1 h2
    cases l with
    | nil => rw [chunkIterAux_nil, chunkIterAux_nil]
    | cons x xs =>
      obtain ⟨g, rfl⟩ : ∃ g, fuel2 = g + 1 := ⟨fuel2 - 1, by simp at h2; omega⟩
      show (if size = 0 then [] else _) = (if size = 0 then [] else _)
      by_cases hs : size = 0
      · rw [if_pos hs, if_pos hs]
      · rw [if_neg hs, if_neg hs]
        congr 1
        apply ih
        · simp at h1 ⊢
          omega
        · simp at h2 ⊢
          omega

theorem chunk_iter_cons {l : List α} {size : Nat} (hs : size ≠ 0) (hl : l ≠ []) :
    chunk_iter l size = l.take size :: chunk_iter (l.drop size) size := by
  cases l with
  | nil => exact absurd rfl hl
  | cons x xs =>
    show chunkIterAux (xs.length + 1) (x :: xs) size = _
    show (if size = 0 then [] else _) = _
    rw [if_neg hs]
    congr 1
    apply chunkIterAux_fuel
    · simp
      omega
    · simp

theorem chunk_iter_flatten {size : Nat} (hs : 0 < size) : ∀ l : List α,
    (chunk_iter l size).flatten = l := by
  have aux : ∀ (fuel : Nat) (l : List α), l.length ≤ fuel →
      (chunkIterAux fuel l size).flatten = l := by
    intro fuel
    induction fuel with
    | zero =>
      intro l h
      have : l = [] := List.eq_nil_of_length_eq_zero (by omega)
      subst this
      rfl
    | succ f ih =>
      intro l h
      cases l with
      | nil => rfl
      | cons x xs =>
        show (if size = 0 then [] else _).flatten = _
        rw [if_neg (by omega)]
        rw [List.flatten_cons]
        rw [ih ((x :: xs).drop size) (by simp at h ⊢; omega)]
        exact List.take_append_drop size (x :: xs)
  intro l
  exact aux l.length l le_rfl

theorem chunk_iter_length {size : Nat} (hs : 0 < size) : ∀ l : List α,
    (chunk_iter l size).length = (l.length + size - 1) / size := by
  have aux : ∀ (fuel : Nat) (l : List α), l.length ≤ fuel →
      (chunkIterAux fuel l size).length = (l.length + size - 1) / size := by
    intro fuel
    induction fuel with
    | zero =>
      intro l h
      have : l = [] := List.eq_nil_of_length_eq_zero (by omega)
      subst this
      show 0 = (0 + size - 1) / size
      rw [Nat.div_eq_of_lt (by omega)]
    | succ f ih =>
      intro l h
      cases l with
      | nil =>
        show 0 = (0 + size - 1) / size
        rw [Nat.div_eq_of_lt (by omega)]
      | cons x xs =>
        show (if size = 0 then [] else _).length = _
        rw [if_neg (by omega)]
        show _ + 1 = _
        rw [ih ((x :: xs).drop size) (by simp at h ⊢; omega)]
        have hlen : ((x :: xs).drop size).length = (x :: xs).length - size := by simp
        rw [hlen]
        set n := (x :: xs).length with hn
        have hn1 : 1 ≤ n := by simp [hn]
        by_cases hc : n ≤ size
        · have e1 : n - size = 0 := by omega
          rw [e1]
          rw [Nat.div_eq_of_lt (by omega)]
          have e2 : n + size - 1 = (n - 1) + size := by omega
          rw [e2, Nat.add_div_right _ hs, Nat.div_eq_of_lt (by omega)]
        · have e1 : n - size + size - 1 = (n - size - 1) + size := by omega
          have e2 : n + size - 1 = (n - 1) + size := by omega
          rw [e1, e2, Nat.add_div_right _ hs, Nat.add_div_right _ hs]
          have e3 : n - 1 = (n - size - 1) + size := by omega
          rw [e3, Nat.add_div_right _ hs]
  intro l
  exact aux l.length l le_rfl

theorem chunk_iter_get {size : Nat} (hs : 0 < size) : ∀ (l : List α) (i : Nat),
    (chunk_iter l size).get? i =
      if l.length ≤ i * size then none else some ((l.drop (i * size)).take size) := by
  have aux : ∀ (fuel : Nat) (l : List α) (i : Nat), l.length ≤ fuel →
      (chunkIterAux fuel l size).get? i =
        if l.length ≤ i * size then none else some ((l.drop (i * size)).take size) := by
    intro fuel
    induction fuel with
    | zero =>
      intro l i h
      have : l = [] := List.eq_nil_of_length_eq_zero (by omega)
      subst this
      rw [chunkIterAux_nil]
      simp
    | succ f ih =>
      intro l i h
      cases l with
      | nil =>
        rw [chunkIterAux_nil]
        simp
      | cons x xs =>
        show (if size = 0 then [] else _).get? i = _
        rw [if_neg (by omega)]
        cases i with
        | zero =>
          rw [if_neg (by simp)]
          simp
        | succ j =>
          show (chunkIterAux f ((x :: xs).drop size) size).get? j = _
          rw [ih ((x :: xs).drop size) j (by simp at h ⊢; omega)]
          have hlen : ((x :: xs).drop size).length = (x :: xs).length - size := by simp
          rw [List.drop_drop, hlen]
          have hmul : (j + 1) * size = j * size + size := by ring
          by_cases hc : (x :: xs).length ≤ (j + 1) * size
          · rw [if_pos (by omega), if_pos hc]
          · rw [if_neg (by omega), if_neg hc]
            have e1 : size + j * size = (j + 1) * size := by ring
            rw [e1]
  intro l i
  exact aux l.length l i le_rfl

/-! ### Parsing the modelled FETCH (UID FLAGS) responses -/

theorem pyReplaceAux_not_mem : ∀ (fuel : Nat) (s : List Char) (oh : Char) (ot new : List Char),
    oh ∉ s → pyReplaceAux fuel s oh ot new = s := by
  intro fuel
  induction fuel with
  | zero => intro s oh ot new _; cases s <;> rfl
  | succ f ih =>
    intro s oh ot new h
    cases s with
    | nil => rfl
    | cons c cs =>
      show (if (oh :: ot).isPrefixOf (c :: cs) then _ else _) = _
      rw [if_neg, ih]
      · exact fun hm => h (List.mem_cons_of_mem _ hm)
      · intro hp
        simp only [List.isPrefixOf, Bool.and_eq_true, beq_iff_eq] at hp
        exact h (by simp [hp.1])

theorem pyReplace_not_mem {s : List Char} {oh : Char} {ot new : List Char}
    (h : oh ∉ s) : pyReplace s oh ot new = s :=
  pyReplaceAux_not_mem s.length s oh ot new h

theorem pyReplaceAux_single : ∀ (fuel : Nat) (s : List Char) (c d : Char),
    s.length ≤ fuel →
    pyReplaceAux fuel s c [] [d] = s.map (fun x => if x = c then d else x) := by
  intro fuel
  induction fuel with
  | zero =>
    intro s c d h
    have : s = [] := List.eq_nil_of_length_eq_zero (by omega)
    subst this
    rfl
  | succ f ih =>
    intro s c d h
    cases s with
    | nil => rfl
    | cons x xs =>
      show (if [c].isPrefixOf (x :: xs) then _ else _) = _
      by_cases hx : x = c
      · rw [if_pos]
        · subst hx
          show d :: pyReplaceAux f xs x [] [d] = _
          rw [ih xs x d (by simp at h; omega)]
          simp
        · simp [List.isPrefixOf, hx]
      · rw [if_neg]
        · rw [ih xs c d (by simp at h; omega)]
          simp [hx]
        · simp [List.isPrefixOf]
          exact fun he => absurd he.symm hx

theorem pyReplace_single (s : List Char) (c d : Char) :
    pyReplace s c [] [d] = s.map (fun x => if x = c then d else x) :=
  pyReplaceAux_single s.length s c d le_rfl

theorem map_id_on {α : Type} {f : α → α} : ∀ {l : List α}, (∀ x ∈ l, f x = x) → l.map f = l := by
  intro l
  induction l with
  | nil => intro _; rfl
  | cons x xs ih =>
    intro h
    simp only [List.map_cons]
    rw [h x (by simp), ih (fun y hy => h y (by simp [hy]))]

theorem isDigit_ne_R {c : Char} (h : c.isDigit = true) : c ≠ 'R' := by
  intro he
  subst he
  exact absurd h (by decide)

theorem isDigit_ne_lpar {c : Char} (h : c.isDigit = true) : c ≠ '(' := by
  intro he
  subst he
  exact absurd h (by decide)

theorem isDigit_ne_rpar {c : Char} (h : c.isDigit = true) : c ≠ ')' := by
  intro he
  subst he
  exact absurd h (by decide)

theorem isDigit_not_space {c : Char} (h : c.isDigit = true) : isPySpace c = false := by
  by_contra hs
  have hs2 : isPySpace c = true := by
    revert hs
    cases isPySpace c <;> simp
  simp only [isPySpace, decide_eq_true_eq] at hs2
  rcases hs2 with h1 | h1 | h1 | h1 | h1 | h1 <;> (subst h1; exact absurd h (by decide))

theorem natToStr_digits {u : Nat} : ∀ c ∈ natToStr u, c.isDigit = true := by
  have h := natToStr_all_digit u
  simp only [List.all_eq_true] at h
  exact h

theorem takeWhile_all_stop {p : Char → Bool} : ∀ (t : List Char) (y : Char) (r : List Char),
    (∀ x ∈ t, p x = true) → p y = false → ((t ++ y :: r).takeWhile p) = t := by
  intro t
  induction t with
  | nil =>
    intro y r _ hy
    simp [List.takeWhile_cons, hy]
  | cons c t2 ih =>
    intro y r h hy
    rw [List.cons_append, List.takeWhile_cons, h c (by simp),
      ih y r (fun x hx => h x (by simp [hx])) hy]
    simp

theorem dropWhile_all_stop {p : Char → Bool} : ∀ (t : List Char) (y : Char) (r : List Char),
    (∀ x ∈ t, p x = true) → p y = false → ((t ++ y :: r).dropWhile p) = y :: r := by
  intro t
  induction t with
  | nil =>
    intro y r _ hy
    simp [List.dropWhile_cons, hy]
  | cons c t2 ih =>
    intro y r h hy
    rw [List.cons_append, List.dropWhile_cons, h c (by simp)]
    simp only [if_true]
    exact ih y r (fun x hx => h x (by simp [hx])) hy

theorem takeWhile_all {p : Char → Bool} : ∀ {t : List Char},
    (∀ x ∈ t, p x = true) → t.takeWhile p = t := by
  intro t
  induction t with
  | nil => intro _; rfl
  | cons c t2 ih =>
    intro h
    rw [List.takeWhile_cons, h c (by simp), ih (fun x hx => h x (by simp [hx]))]
    simp

theorem dropWhile_all {p : Char → Bool} : ∀ {t : List Char},
    (∀ x ∈ t, p x = true) → t.dropWhile p = [] := by
  intro t
  induction t with
  | nil => intro _; rfl
  | cons c t2 ih =>
    intro h
    rw [List.dropWhile_cons, h c (by simp)]
    simp only [if_true]
    exact ih (fun x hx => h x (by simp [hx]))

theorem dropWhile_length_le {p : Char → Bool} : ∀ (l : List Char),
    (l.dropWhile p).length ≤ l.length := by
  intro l
  induction l with
  | nil => simp
  | cons c cs ih =>
    rw [List.dropWhile_cons]
    by_cases hc : p c = true
    · rw [if_pos hc]
      simp
      omega
    · rw [if_neg hc]

theorem pySplitWsAux_fuel : ∀ (fuel1 fuel2 : Nat) (s : List Char),
    s.length ≤ fuel1 → s.length ≤ fuel2 → pySplitWsAux fuel1 s = pySplitWsAux fuel2 s := by
  intro fuel1
  induction fuel1 with
  | zero =>
    intro fuel2 s h1 _
    have : s = [] := List.eq_nil_of_length_eq_zero (by omega)
    subst this
    cases fuel2 <;> rfl
  | succ f ih =>
    intro fuel2 s h1 h2
    cases s with
    | nil => cases fuel2 <;> rfl
    | cons c cs =>
      obtain ⟨g, rfl⟩ : ∃ g, fuel2 = g + 1 := ⟨fuel2 - 1, by simp at h2; omega⟩
      show (if isPySpace c then _ else _) = (if isPySpace c then _ else _)
      by_cases hc : isPySpace c
      · rw [if_pos hc, if_pos hc]
        exact ih g cs (by simp at h1; omega) (by simp at h2; omega)
      · rw [if_neg hc, if_neg hc]
        congr 1
        have hd := dropWhile_length_le (p := fun x => ! isPySpace x) cs
        exact ih g _ (by simp at h1; omega) (by simp at h2; omega)

theorem pySplitWs_space (r : List Char) : pySplitWs (' ' :: r) = pySplitWs r := by
  show (if isPySpace ' ' then pySplitWsAux r.length r
        else (' ' :: (r.takeWhile (fun x => ! isPySpace x))) ::
          pySplitWsAux r.length (r.dropWhile (fun x => ! isPySpace x))) = _
  rw [if_pos (by decide)]
  rfl

theorem pySplitWs_token (t r : List Char) (ht : t ≠ [])
    (hns : ∀ c ∈ t, isPySpace c = false) :
    pySplitWs (t ++ ' ' :: r) = t :: pySplitWs r := by
  obtain ⟨c, t2, rfl⟩ : ∃ c t2, t = c :: t2 := by
    cases t with
    | nil => exact absurd rfl ht
    | cons c t2 => exact ⟨c, t2, rfl⟩
  show pySplitWsAux ((c :: t2 ++ ' ' :: r).length) (c :: (t2 ++ ' ' :: r)) = _
  rw [show ((c :: t2 ++ ' ' :: r).length) = (t2 ++ ' ' :: r).length + 1 from by simp]
  show (if isPySpace c then _ else _) = _
  rw [if_neg (by rw [hns c (by simp)]; simp)]
  have hp : ∀ x ∈ t2, (fun x => ! isPySpace x) x = true := by
    intro x hx
    simp [hns x (by simp [hx])]
  rw [takeWhile_all_stop t2 ' ' r hp (by simp [isPySpace]),
    dropWhile_all_stop t2 ' ' r hp (by simp [isPySpace])]
  congr 1
  show pySplitWsAux ((t2 ++ ' ' :: r).length) (' ' :: r) = pySplitWs r
  rw [show pySplitWsAux ((t2 ++ ' ' :: r).length) (' ' :: r)
        = pySplitWsAux ((' ' :: r).length) (' ' :: r) from
      pySplitWsAux_fuel _ _ _ (by simp) (by simp)]
  show (if isPySpace ' ' then _ else _) = _
  rw [if_pos (by decide)]
  exact pySplitWsAux_fuel r.length r.length r le_rfl le_rfl

theorem pySplitWs_single (t : List Char) (ht : t ≠ [])
    (hns : ∀ c ∈ t, isPySpace c = false) :
    pySplitWs t = [t] := by
  obtain ⟨c, t2, rfl⟩ : ∃ c t2, t = c :: t2 := by
    cases t with
    | nil => exact absurd rfl ht
    | cons c t2 => exact ⟨c, t2, rfl⟩
  show (if isPySpace c then _ else _) = _
  rw [if_neg (by rw [hns c (by simp)]; simp)]
  have hp : ∀ x ∈ t2, (fun x => ! isPySpace x) x = true := by
    intro x hx
    simp [hns x (by simp [hx])]
  rw [takeWhile_all hp, dropWhile_all hp]
  cases t2 <;> rfl

theorem pySplitWs_last (t : List Char) (h : t ≠ []) (hns : ∀ c ∈ t, isPySpace c = false) :
    pySplitWs (t ++ [' ']) = [t] := by
  rw [show (t ++ [' '] : List Char) = t ++ ' ' :: [] from rfl, pySplitWs_token t [] h hns]
  rfl

theorem extractScan_uid {D : List Char} {u : Nat} (h : pyParseNat D = some u) :
    extractScan [['U', 'I', 'D'], D] (none, none) = (some u, none) := by
  show extractScan [D]
      (if (['U', 'I', 'D'] : List Char) = "UID".data
         then (pyParseNat D).elim none some else none,
       if (['U', 'I', 'D'] : List Char) = "RFC822.SIZE".data
         then (pyParseNat D).elim none some else none)
      = (some u, none)
  rw [if_pos (by decide), if_neg (by decide), h]
  rfl

/-- Parsing one modelled flags item: the UID round-trips through the
meta string, and the deletion test is the substring test on the
payload. -/
theorem undeletedUidOf_pair (u : Nat) (fl : List Char) :
    undeletedUidOf (.pair ("(UID ".data ++ natToStr u ++ ")".data) (some fl))
      = if u ≠ 0 ∧ ¬ containsSub fl "\\Deleted".data = true then some u else none := by
  have hmeta : pyReplace ("(UID ".data ++ natToStr u ++ ")".data) 'R' "FC822.SIZE".data ['X']
      = "(UID ".data ++ natToStr u ++ ")".data := by
    apply pyReplace_not_mem
    intro hmem
    simp only [List.mem_append] at hmem
    rcases hmem with (hmem | hmem) | hmem
    · exact absurd hmem (by decide)
    · exact absurd rfl (isDigit_ne_R (natToStr_digits 'R' hmem))
    · exact absurd hmem (by decide)
  have hin : (natToStr u).map (fun x => if x = '(' then ' ' else x) = natToStr u :=
    map_id_on (fun x hx => by rw [if_neg (isDigit_ne_lpar (natToStr_digits x hx))])
  have hout : (natToStr u).map (fun x => if x = ')' then ' ' else x) = natToStr u :=
    map_id_on (fun x hx => by rw [if_neg (isDigit_ne_rpar (natToStr_digits x hx))])
  have hrep : pyReplace (pyReplace ("(UID ".data ++ natToStr u ++ ")".data) '(' [] [' '])
        ')' [] [' ']
      = ' ' :: (['U', 'I', 'D'] ++ ' ' :: (natToStr u ++ [' '])) := by
    rw [pyReplace_single, pyReplace_single, List.map_append, List.map_append,
      List.map_append, List.map_append, hin, hout]
    rfl
  have hne : natToStr u ≠ [] := by
    simp only [natToStr, ne_eq, List.map_eq_nil_iff]
    exact natToDigits_ne_nil u
  have hnsD : ∀ c ∈ natToStr u, isPySpace c = false :=
    fun c hc => isDigit_not_space (natToStr_digits c hc)
  have hext : extract_uid_and_size (pyReplace ("(UID ".data ++ natToStr u ++ ")".data) 'R'
      "FC822.SIZE".data ['X']) = (some u, none) := by
    rw [hmeta]
    unfold extract_uid_and_size
    rw [hrep, pySplitWs_space, pySplitWs_token ['U', 'I', 'D'] _ (by simp) (by decide),
      pySplitWs_last (natToStr u) hne hnsD]
    exact extractScan_uid (pyParseNat_natToStr u)
  simp only [undeletedUidOf]
  rw [hext]
  rfl

/-- The modelled server items of one sub-chunk parse back to exactly
the present, nonzero, unflagged UIDs of the sub-chunk, in order. -/
theorem resp_items_parse (sv : Server) : ∀ part : List Nat,
    ((part.filterMap fun u => (sv.find? (fun m => m.uid = u)).map fun m =>
        DataItem.pair ("(UID ".data ++ natToStr u ++ ")".data)
          (some (if m.deleted then "(\\Deleted)".data else "()".data))).filterMap
      undeletedUidOf)
    = part.filter (undeletedPred sv) := by
  intro part
  induction part with
  | nil => rfl
  | cons u p2 ih =>
    rw [List.filterMap_cons, List.filter_cons]
    cases hf : sv.find? (fun m => m.uid = u) with
    | none =>
      simp only [Option.map_none']
      rw [ih]
      have hp : undeletedPred sv u = false := by
        simp [undeletedPred, hf]
      rw [hp]
      simp
    | some m =>
      simp only [Option.map_some']
      rw [List.filterMap_cons, undeletedUidOf_pair]
      have hp : undeletedPred sv u = (decide (u ≠ 0) && ! m.deleted) := by
        simp [undeletedPred, hf]
      rw [hp, ih]
      cases hd : m.deleted with
      | true =>
        rw [if_neg (fun hcon => hcon.2 (by decide))]
        simp
      | false =>
        by_cases hu : u = 0
        · subst hu
          rw [if_neg (fun hcon => hcon.1 rfl)]
          simp
        · rw [if_pos ⟨hu, by decide⟩]
          simp [hu]

/-- filter_undeleted collects, over the sub-chunks, nothing for a
non-OK response and the parsed items for an OK response. -/
theorem filter_undeleted_eq (F : List Nat → Option (List DataItem)) (uids : List Nat)
    (k : Nat) :
    filter_undeleted F uids k =
      ((chunk_iter uids k).map (fun part =>
        match F part with
        | none => []
        | some data => data.filterMap undeletedUidOf)).flatten := by
  have aux : ∀ (chunks : List (List Nat)) (acc : List Nat),
      chunks.foldl (fun remain part =>
        match F part with
        | none => remain
        | some data => remain ++ data.filterMap undeletedUidOf) acc
      = acc ++ (chunks.map (fun part =>
        match F part with
        | none => []
        | some data => data.filterMap undeletedUidOf)).flatten := by
    intro chunks
    induction chunks with
    | nil => intro acc; simp
    | cons c cs ih =>
      intro acc
      rw [List.foldl_cons, ih, List.map_cons, List.flatten_cons]
      cases hF : F c with
      | none => simp
      | some data => simp
  unfold filter_undeleted
  rw [aux]
  simp

theorem flatten_map_filter (p : Nat → Bool) : ∀ chunks : List (List Nat),
    (chunks.map (fun l => l.filter p)).flatten = chunks.flatten.filter p := by
  intro chunks
  induction chunks with
  | nil => rfl
  | cons c cs ih =>
    rw [List.map_cons, List.flatten_cons, List.flatten_cons, List.filter_append, ih]

/-- filter_undeleted against the modelled server: exactly the UIDs of
the list that exist, are nonzero, and are not flagged deleted. -/
theorem filter_undeleted_server (sv : Server) (uids : List Nat) {k : Nat} (hk : 0 < k) :
    filter_undeleted (serverFlagsResp sv) uids k = uids.filter (undeletedPred sv) := by
  rw [filter_undeleted_eq]
  have hfun : (fun part : List Nat =>
      match serverFlagsResp sv part with
      | none => ([] : List Nat)
      | some data => data.filterMap undeletedUidOf)
      = fun part => part.filter (undeletedPred sv) := by
    funext part
    show ((part.filterMap fun u => (sv.find? (fun m => m.uid = u)).map fun m =>
        DataItem.pair ("(UID ".data ++ natToStr u ++ ")".data)
          (some (if m.deleted then "(\\Deleted)".data else "()".data))).filterMap
      undeletedUidOf) = _
    exact resp_items_parse sv part
  rw [hfun, flatten_map_filter, chunk_iter_flatten hk]

/-! ### setDeleted, flagOf and mark_delete facts -/

theorem find?_setDeleted (sv : Server) (us : List Nat) (u : Nat) :
    (setDeleted sv us).find? (fun m => m.uid = u)
      = (sv.find? (fun m => m.uid = u)).map
          (fun m => if m.uid ∈ us then { m with deleted := true } else m) := by
  induction sv with
  | nil => rfl
  | cons m sv2 ih =>
    have huid : (if m.uid ∈ us then { m with deleted := true } else m).uid = m.uid := by
      by_cases h : m.uid ∈ us <;> simp [h]
    show List.find? _ ((if m.uid ∈ us then { m with deleted := true } else m) :: setDeleted sv2 us) = _
    rw [List.find?_cons, List.find?_cons]
    by_cases hm : m.uid = u
    · rw [show (decide ((if m.uid ∈ us then { m with deleted := true } else m).uid = u)) = true
            from by rw [huid]; simp [hm]]
      rw [show (decide (m.uid = u)) = true from by simp [hm]]
      simp
    · rw [show (decide ((if m.uid ∈ us then { m with deleted := true } else m).uid = u)) = false
            from by rw [huid]; simp [hm]]
      rw [show (decide (m.uid = u)) = false from by simp [hm]]
      exact ih

theorem flagOf_setDeleted (sv : Server) (us : List Nat) (u : Nat) :
    flagOf (setDeleted sv us) u = (flagOf sv u).map (fun d => if u ∈ us then true else d) := by
  unfold flagOf
  rw [find?_setDeleted]
  cases hf : sv.find? (fun m => m.uid = u) with
  | none => rfl
  | some m =>
    have hm : m.uid = u := by
      have := List.find?_some hf
      simpa using this
    simp only [Option.map_some']
    rw [hm]
    by_cases h : u ∈ us <;> simp [h]

theorem undeletedPred_flag (sv : Server) (u : Nat) :
    undeletedPred sv u = (decide (u ≠ 0) && ((flagOf sv u).elim false (fun d => ! d))) := by
  unfold undeletedPred flagOf
  cases sv.find? (fun m => m.uid = u) <;> rfl

theorem markDeleteGo_cons (b : Nat) (sv : Server) (c : List Nat) (cs : List (List Nat))
    (scr : List Bool) :
    markDeleteGo b sv (c :: cs) scr =
      if scr.headD true = true then
        ((markDeleteGo b (setDeleted sv c) cs scr.tail).1,
         Event.store b c true :: (markDeleteGo b (setDeleted sv c) cs scr.tail).2.1,
         (markDeleteGo b (setDeleted sv c) cs scr.tail).2.2.1,
         (markDeleteGo b (setDeleted sv c) cs scr.tail).2.2.2)
      else (sv, [Event.store b c false], scr.tail, true) := by
  simp only [markDeleteGo]

theorem setDeleted_nil (sv : Server) : setDeleted sv [] = sv := by
  unfold setDeleted
  apply map_id_on
  intro m _
  simp

theorem setDeleted_setDeleted (sv : Server) (a2 b2 : List Nat) :
    setDeleted (setDeleted sv a2) b2 = setDeleted sv (a2 ++ b2) := by
  unfold setDeleted
  rw [List.map_map]
  apply List.map_congr_left
  intro m _
  show (if (if m.uid ∈ a2 then { m with deleted := true } else m).uid ∈ b2
        then _ else _) = _
  by_cases h1 : m.uid ∈ a2
  · rw [if_pos h1]
    by_cases h2 : m.uid ∈ b2 <;> simp [h1, h2, List.mem_append]
  · rw [if_neg h1]
    by_cases h2 : m.uid ∈ b2 <;> simp [h1, h2, List.mem_append]

theorem markDeleteGo_nil_script (b : Nat) : ∀ (chunks : List (List Nat)) (sv : Server),
    markDeleteGo b sv chunks []
      = (setDeleted sv chunks.flatten,
         chunks.map (fun part => Event.store b part true), [], false) := by
  intro chunks
  induction chunks with
  | nil =>
    intro sv
    show (sv, [], [], false) = _
    rw [show ((([] : List (List Nat))).flatten : List Nat) = [] from rfl, setDeleted_nil]
    rfl
  | cons c cs ih =>
    intro sv
    rw [markDeleteGo_cons]
    simp only [List.headD_nil, List.tail_nil, if_true]
    rw [ih (setDeleted sv c), setDeleted_setDeleted, List.flatten_cons, List.map_cons]

theorem markDeleteGo_store_sub (b : Nat) : ∀ (chunks : List (List Nat)) (sv : Server)
    (scr : List Bool) (ev : Event), ev ∈ (markDeleteGo b sv chunks scr).2.1 →
    ∃ part ∈ chunks, ∃ ap, ev = Event.store b part ap := by
  intro chunks
  induction chunks with
  | nil => intro sv scr ev h; exact absurd h (by simp [markDeleteGo])
  | cons c cs ih =>
    intro sv scr ev h
    rw [markDeleteGo_cons] at h
    by_cases hok : scr.headD true = true
    · rw [if_pos hok] at h
      simp only [List.mem_cons] at h
      rcases h with h | h
      · exact ⟨c, by simp, true, h⟩
      · obtain ⟨part, hp, ap, he⟩ := ih (setDeleted sv c) scr.tail ev h
        exact ⟨part, by simp [hp], ap, he⟩
    · rw [if_neg hok] at h
      simp only [List.mem_cons, List.not_mem_nil, or_false] at h
      exact ⟨c, by simp, false, h⟩

theorem flagOf_setDeleted_not_mem {sv : Server} {us : List Nat} {u : Nat} (h : u ∉ us) :
    flagOf (setDeleted sv us) u = flagOf sv u := by
  rw [flagOf_setDeleted]
  cases flagOf sv u with
  | none => rfl
  | some d => simp [h]

theorem markDeleteGo_flag_preserved (b : Nat) : ∀ (chunks : List (List Nat)) (sv : Server)
    (scr : List Bool) (u : Nat), (∀ part ∈ chunks, u ∉ part) →
    flagOf (markDeleteGo b sv chunks scr).1 u = flagOf sv u := by
  intro chunks
  induction chunks with
  | nil => intro sv scr u _; rfl
  | cons c cs ih =>
    intro sv scr u h
    rw [markDeleteGo_cons]
    by_cases hok : scr.headD true = true
    · rw [if_pos hok]
      rw [show (((markDeleteGo b (setDeleted sv c) cs scr.tail).1, Event.store b c true ::
            (markDeleteGo b (setDeleted sv c) cs scr.tail).2.1,
            (markDeleteGo b (setDeleted sv c) cs scr.tail).2.2.1,
            (markDeleteGo b (setDeleted sv c) cs scr.tail).2.2.2)).1
          = (markDeleteGo b (setDeleted sv c) cs scr.tail).1 from rfl]
      rw [ih (setDeleted sv c) scr.tail u (fun part hp => h part (by simp [hp]))]
      exact flagOf_setDeleted_not_mem (h c (by simp))
    · rw [if_neg hok]

/-! ### Claim C10 -/

/-- Claim C10: during the flags recheck, a sub-chunk whose FETCH
returns a non-OK status is silently skipped:
(1) the returned subset is exactly the concatenation over sub-chunks
of nothing for failed sub-chunks and the present-and-unflagged subset
for successful ones;
(2) hence (for a duplicate-free candidate list) an identifier of a
failed sub-chunk never appears in the returned subset, even if it is
still unmarked on the server;
(3) consequently the resume marking pass, which issues STOREs only for
sub-chunks of the returned subset and adds only its length to the
reported total, neither re-marks such an identifier nor changes its
server-side flag. -/
theorem claim_C10 (sv : Server) (uids : List Nat) (k : Nat) (bad : List (List Nat))
    (hk : 0 < k) (hnd : uids.Nodup) :
    (filter_undeleted (fun p => if p ∈ bad then none else serverFlagsResp sv p) uids k
      = ((chunk_iter uids k).map (fun part =>
          if part ∈ bad then [] else part.filter (undeletedPred sv))).flatten)
    ∧ (∀ u part, part ∈ chunk_iter uids k → u ∈ part → part ∈ bad →
        u ∉ filter_undeleted (fun p => if p ∈ bad then none else serverFlagsResp sv p) uids k)
    ∧ (∀ (u b sc : Nat) (sv2 : Server) (scr : List Bool) (tr : List Nat), u ∉ tr →
        (∀ ev ∈ (mark_delete b sv2 tr sc scr).2.1, ∀ us ap, ev = Event.store b us ap → u ∉ us)
        ∧ flagOf (mark_delete b sv2 tr sc scr).1 u = flagOf sv2 u) := by
  have hdecomp : filter_undeleted (fun p => if p ∈ bad then none else serverFlagsResp sv p)
      uids k = ((chunk_iter uids k).map (fun part =>
        if part ∈ bad then [] else part.filter (undeletedPred sv))).flatten := by
    rw [filter_undeleted_eq]
    congr 1
    apply List.map_congr_left
    intro part _
    by_cases hb : part ∈ bad
    · rw [if_pos hb, if_pos hb]
    · rw [if_neg hb, if_neg hb]
      show ((part.filterMap fun u => (sv.find? (fun m => m.uid = u)).map fun m =>
          DataItem.pair ("(UID ".data ++ natToStr u ++ ")".data)
            (some (if m.deleted then "(\\Deleted)".data else "()".data))).filterMap
        undeletedUidOf) = _
      exact resp_items_parse sv part
  refine ⟨hdecomp, ?_, ?_⟩
  · intro u part hpart hu hbad hmem
    rw [hdecomp] at hmem
    rw [List.mem_flatten] at hmem
    obtain ⟨l, hl, hul⟩ := hmem
    rw [List.mem_map] at hl
    obtain ⟨part2, hp2, rfl⟩ := hl
    by_cases hb2 : part2 ∈ bad
    · rw [if_pos hb2] at hul
      exact absurd hul (by simp)
    · rw [if_neg hb2] at hul
      have hu2 : u ∈ part2 := List.mem_of_mem_filter hul
      have hne : part ≠ part2 := fun he => hb2 (he ▸ hbad)
      obtain ⟨s, t, hst⟩ := List.append_of_mem hpart
      have hflat : s.flatten ++ (part ++ t.flatten) = uids := by
        rw [← chunk_iter_flatten hk uids, hst]
        simp [List.flatten_append, List.flatten_cons, List.append_assoc]
      have hnd2 : (s.flatten ++ (part ++ t.flatten)).Nodup := by
        rw [hflat]
        exact hnd
      have hdisj1 := List.disjoint_of_nodup_append hnd2
      have hdisj2 := List.disjoint_of_nodup_append (List.Nodup.of_append_right hnd2)
      have hp2s : part2 ∈ s ∨ part2 = part ∨ part2 ∈ t := by
        have h3 := hp2
        rw [hst] at h3
        simp only [List.mem_append, List.mem_cons] at h3
        tauto
      rcases hp2s with h2 | h2 | h2
      · exact hdisj1 (List.mem_flatten.mpr ⟨part2, h2, hu2⟩) (by simp [hu])
      · exact hne h2.symm
      · exact hdisj2 hu (List.mem_flatten.mpr ⟨part2, h2, hu2⟩)
  · intro u b sc sv2 scr tr hu
    have hsub : ∀ part ∈ chunk_iter tr sc, u ∉ part := by
      intro part hp hup
      by_cases hsc : 0 < sc
      · exact hu (by rw [← chunk_iter_flatten hsc tr]; exact List.mem_flatten.mpr ⟨part, hp, hup⟩)
      · have : sc = 0 := by omega
        subst this
        have : chunk_iter tr 0 = [] := by
          cases tr <;> simp [chunk_iter, chunkIterAux]
        rw [this] at hp
        exact absurd hp (by simp)
    constructor
    · intro ev hev us ap he
      obtain ⟨part, hp, ap2, he2⟩ := markDeleteGo_store_sub b _ sv2 scr ev hev
      subst he
      have hup : us = part := by
        have h4 := he2
        simp only [Event.store.injEq] at h4
        exact h4.2.1
      subst hup
      exact hsub _ hp
    · exact markDeleteGo_flag_preserved b _ sv2 scr u hsub

theorem claim_C10_witness :
    (3 ∉ filter_undeleted
      (fun p => if p ∈ [[3, 4]] then none
        else serverFlagsResp [⟨1, "", "", "", "", "", 0, false⟩, ⟨2, "", "", "", "", "", 0, false⟩,
          ⟨3, "", "", "", "", "", 0, false⟩, ⟨4, "", "", "", "", "", 0, false⟩] p)
      [1, 2, 3, 4] 2)
    ∧ (∀ ev ∈ (mark_delete 1 [⟨3, "", "", "", "", "", 0, false⟩] [1, 2] 1 []).2.1,
        ∀ us ap, ev = Event.store 1 us ap → 3 ∉ us) :=
  ⟨(claim_C10 _ [1, 2, 3, 4] 2 [[3, 4]] (by decide) (by decide)).2.1 3 [3, 4]
      (by decide) (by decide) (by decide),
   fun ev hev us ap he =>
     ((claim_C10 [] [] 1 [] (by decide) (by decide)).2.2 3 1 1
        [⟨3, "", "", "", "", "", 0, false⟩] [] [1, 2] (by decide)).1 ev hev us ap he⟩

/-! ### Claim C3 -/

/-- Claim C3: delete-marking aborts after applying the first kk
sub-chunks of the intended duplicate set, a strict subset.  The code
then reconnects and calls filter_undeleted on the full intended set,
and resumes mark_delete on the result.  For a duplicate-free intended
set of present, initially-unflagged, nonzero UIDs:
(1) the recheck returns exactly the UIDs of the unapplied sub-chunks;
(2) applied and returned UIDs partition the intended set;
(3) nothing returned is already flagged, and (4) nothing already
flagged is returned; (5) the returned subset is duplicate-free, so
(6)-(8) the resume pass completes without abort, issues exactly one
STORE per sub-chunk of the returned subset (so no identifier is marked
twice across the two passes), and applies exactly those flags; and
(9) afterwards the full intended set is flagged.  The reported total
is increased by the aborted pass by nothing and by the resume pass by
the size of the returned subset, so no identifier is counted twice. -/
theorem claim_C3 (sv0 : Server) (dels : List Nat) (sc fc kk b : Nat)
    (hsc : 0 < sc) (hfc : 0 < fc) (hnd : dels.Nodup) (h0 : 0 ∉ dels)
    (hpres : ∀ u ∈ dels, flagOf sv0 u = some false)
    (hk : kk < (chunk_iter dels sc).length) :
    filter_undeleted (serverFlagsResp (setDeleted sv0 (((chunk_iter dels sc).take kk).flatten)))
        dels fc
      = ((chunk_iter dels sc).drop kk).flatten
    ∧ ((chunk_iter dels sc).take kk).flatten ++ ((chunk_iter dels sc).drop kk).flatten = dels
    ∧ (∀ u ∈ ((chunk_iter dels sc).drop kk).flatten,
        flagOf (setDeleted sv0 (((chunk_iter dels sc).take kk).flatten)) u = some false)
    ∧ (∀ u ∈ ((chunk_iter dels sc).take kk).flatten,
        u ∉ ((chunk_iter dels sc).drop kk).flatten)
    ∧ (((chunk_iter dels sc).drop kk).flatten).Nodup
    ∧ (mark_delete b (setDeleted sv0 (((chunk_iter dels sc).take kk).flatten))
        (((chunk_iter dels sc).drop kk).flatten) sc []).2.2.2 = false
    ∧ (mark_delete b (setDeleted sv0 (((chunk_iter dels sc).take kk).flatten))
        (((chunk_iter dels sc).drop kk).flatten) sc []).2.1
      = (chunk_iter (((chunk_iter dels sc).drop kk).flatten) sc).map
          (fun part => Event.store b part true)
    ∧ (mark_delete b (setDeleted sv0 (((chunk_iter dels sc).take kk).flatten))
        (((chunk_iter dels sc).drop kk).flatten) sc []).1
      = setDeleted (setDeleted sv0 (((chunk_iter dels sc).take kk).flatten))
          (((chunk_iter dels sc).drop kk).flatten)
    ∧ (∀ u ∈ dels,
        flagOf (setDeleted (setDeleted sv0 (((chunk_iter dels sc).take kk).flatten))
          (((chunk_iter dels sc).drop kk).flatten)) u = some true) := by
  have hsplit : ((chunk_iter dels sc).take kk).flatten ++
      ((chunk_iter dels sc).drop kk).flatten = dels := by
    rw [← List.flatten_append, List.take_append_drop, chunk_iter_flatten hsc]
  have hndsplit : (((chunk_iter dels sc).take kk).flatten ++
      ((chunk_iter dels sc).drop kk).flatten).Nodup := by
    rw [hsplit]
    exact hnd
  have hdisj := List.disjoint_of_nodup_append hndsplit
  have hmem_marked : ∀ u ∈ ((chunk_iter dels sc).take kk).flatten, u ∈ dels := by
    intro u hu
    rw [← hsplit]
    simp [hu]
  have hmem_rest : ∀ u ∈ ((chunk_iter dels sc).drop kk).flatten, u ∈ dels := by
    intro u hu
    rw [← hsplit]
    simp [hu]
  have hflag_marked : ∀ u ∈ ((chunk_iter dels sc).take kk).flatten,
      flagOf (setDeleted sv0 (((chunk_iter dels sc).take kk).flatten)) u = some true := by
    intro u hu
    rw [flagOf_setDeleted, hpres u (hmem_marked u hu)]
    simp [hu]
  have hflag_rest : ∀ u ∈ ((chunk_iter dels sc).drop kk).flatten,
      flagOf (setDeleted sv0 (((chunk_iter dels sc).take kk).flatten)) u = some false := by
    intro u hu
    rw [flagOf_setDeleted_not_mem (fun hin => hdisj hin hu), hpres u (hmem_rest u hu)]
  have hfilter : filter_undeleted
      (serverFlagsResp (setDeleted sv0 (((chunk_iter dels sc).take kk).flatten))) dels fc
      = ((chunk_iter dels sc).drop kk).flatten := by
    rw [filter_undeleted_server _ _ hfc]
    rw [show dels.filter (undeletedPred (setDeleted sv0 (((chunk_iter dels sc).take kk).flatten)))
          = ((((chunk_iter dels sc).take kk).flatten) ++
              (((chunk_iter dels sc).drop kk).flatten)).filter
              (undeletedPred (setDeleted sv0 (((chunk_iter dels sc).take kk).flatten)))
        from (congrArg _ hsplit).symm]
    rw [List.filter_append]
    rw [List.filter_eq_nil_iff.mpr (fun u hu => by
      rw [undeletedPred_flag, hflag_marked u hu]
      simp)]
    rw [List.filter_eq_self.mpr (fun u hu => by
      rw [undeletedPred_flag, hflag_rest u hu]
      have : u ≠ 0 := fun he => h0 (he ▸ hmem_rest u hu)
      simp [this])]
    rfl
  refine ⟨hfilter, hsplit, hflag_rest, fun u hu hu2 => hdisj hu hu2,
    List.Nodup.of_append_right hndsplit, ?_, ?_, ?_, ?_⟩
  · rw [show mark_delete b (setDeleted sv0 (((chunk_iter dels sc).take kk).flatten))
        (((chunk_iter dels sc).drop kk).flatten) sc [] =
        markDeleteGo b _ (chunk_iter (((chunk_iter dels sc).drop kk).flatten) sc) [] from rfl,
      markDeleteGo_nil_script]
  · rw [show mark_delete b (setDeleted sv0 (((chunk_iter dels sc).take kk).flatten))
        (((chunk_iter dels sc).drop kk).flatten) sc [] =
        markDeleteGo b _ (chunk_iter (((chunk_iter dels sc).drop kk).flatten) sc) [] from rfl,
      markDeleteGo_nil_script]
  · rw [show mark_delete b (setDeleted sv0 (((chunk_iter dels sc).take kk).flatten))
        (((chunk_iter dels sc).drop kk).flatten) sc [] =
        markDeleteGo b _ (chunk_iter (((chunk_iter dels sc).drop kk).flatten) sc) [] from rfl,
      markDeleteGo_nil_script]
    rw [chunk_iter_flatten hsc]
  · intro u hu
    rw [flagOf_setDeleted]
    have hcase : u ∈ ((chunk_iter dels sc).take kk).flatten ∨
        u ∈ ((chunk_iter dels sc).drop kk).flatten := by
      rw [← hsplit] at hu
      simpa using hu
    rcases hcase with hc | hc
    · rw [hflag_marked u hc]
      simp
    · rw [hflag_rest u hc]
      simp [hc]

theorem claim_C3_witness :
    filter_undeleted (serverFlagsResp (setDeleted
        [⟨1, "", "", "", "", "", 0, false⟩, ⟨2, "", "", "", "", "", 0, false⟩,
         ⟨3, "", "", "", "", "", 0, false⟩] (([[1], [2], [3]].take 1).flatten)))
      [1, 2, 3] 2
      = (([[1], [2], [3]].drop 1).flatten)
    ∧ (∀ u ∈ ([1, 2, 3] : List Nat),
        flagOf (setDeleted (setDeleted
          [⟨1, "", "", "", "", "", 0, false⟩, ⟨2, "", "", "", "", "", 0, false⟩,
           ⟨3, "", "", "", "", "", 0, false⟩] (([[1], [2], [3]].take 1).flatten))
          (([[1], [2], [3]].drop 1).flatten)) u = some true) := by
  have h := claim_C3
    [⟨1, "", "", "", "", "", 0, false⟩, ⟨2, "", "", "", "", "", 0, false⟩,
     ⟨3, "", "", "", "", "", 0, false⟩]
    [1, 2, 3] 1 2 1 5 (by decide) (by decide) (by decide) (by decide)
    (by decide) (by decide)
  have hch : chunk_iter ([1, 2, 3] : List Nat) 1 = [[1], [2], [3]] := by decide
  refine ⟨?_, ?_⟩
  · have h1 := h.1
    rw [hch] at h1
    exact h1
  · have h9 := h.2.2.2.2.2.2.2.2
    rw [hch] at h9
    exact h9

/-! ### Digest-store classification facts -/

theorem find?_filter_of_imp {α : Type} (p q : α → Bool) :
    ∀ l : List α, (∀ r, p r = true → q r = true) →
    (l.filter q).find? p = l.find? p := by
  intro l
  induction l with
  | nil => intro _; rfl
  | cons r l2 ih =>
    intro h
    rw [List.filter_cons]
    cases hp : p r with
    | true =>
      rw [if_pos (h r hp), List.find?_cons, List.find?_cons, hp]
    | false =>
      by_cases hq : q r = true
      · rw [if_pos hq, List.find?_cons, List.find?_cons, hp]
        show (l2.filter q).find? p = l2.find? p
        exact ih h
      · rw [if_neg hq, List.find?_cons, hp]
        show (l2.filter q).find? p = l2.find? p
        exact ih h

theorem lookupRows_insert_self (rows : List Row) (mb d : String) (u : Nat) :
    lookupRows (⟨mb, d, u⟩ :: rows.filter (fun r => ¬ (r.mailbox = mb ∧ r.digest = d)))
      mb d = some u := by
  unfold lookupRows
  rw [List.find?_cons]
  simp

theorem lookupRows_insert_other (rows : List Row) (mb d : String) (u : Nat)
    {mb2 d2 : String} (hne : ¬ (mb2 = mb ∧ d2 = d)) :
    lookupRows (⟨mb, d, u⟩ :: rows.filter (fun r => ¬ (r.mailbox = mb ∧ r.digest = d)))
      mb2 d2 = lookupRows rows mb2 d2 := by
  unfold lookupRows
  rw [List.find?_cons]
  rw [show (decide (Row.mailbox ⟨mb, d, u⟩ = mb2 ∧ Row.digest ⟨mb, d, u⟩ = d2)) = false from by
    simp only [decide_eq_false_iff_not]
    intro hcon
    exact hne ⟨hcon.1.symm, hcon.2.symm⟩]
  rw [find?_filter_of_imp _ _ rows (fun r hp => by
    simp only [decide_eq_true_eq] at hp
    simp only [decide_eq_true_eq]
    intro hcon
    exact hne ⟨hp.1 ▸ hcon.1, hp.2 ▸ hcon.2⟩)]

theorem dbInsert_lookup_self (db : Db) (mb d : String) (u : Nat) :
    dbLookup (dbInsert db mb d u) mb d = some u :=
  lookupRows_insert_self db.rows mb d u

theorem dbInsert_lookup_other (db : Db) (mb d : String) (u : Nat) {mb2 d2 : String}
    (hne : ¬ (mb2 = mb ∧ d2 = d)) :
    dbLookup (dbInsert db mb d u) mb2 d2 = dbLookup db mb2 d2 :=
  lookupRows_insert_other db.rows mb d u hne

theorem classifyOne_lookup_mono (mb : String) (crit : Criteria) (st : ClassSt) (m : Msg)
    {mb2 d : String} {k : Nat} (h : dbLookup st.db mb2 d = some k) :
    dbLookup (classifyOne mb crit st m).db mb2 d = some k := by
  simp only [classifyOne]
  cases hl : dbLookup st.db mb (digestOf crit m) with
  | none =>
    show dbLookup (dbInsert st.db mb (digestOf crit m) m.uid) mb2 d = some k
    rw [dbInsert_lookup_other st.db mb (digestOf crit m) m.uid (fun hcon => by
      rw [hcon.1, hcon.2] at h
      rw [h] at hl
      exact Option.noConfusion hl)]
    exact h
  | some keep =>
    show dbLookup (if keep = m.uid then
        ({ st with kept_existing := st.kept_existing + 1 } : ClassSt)
      else { st with delete_uids := st.delete_uids ++ [m.uid] }).db mb2 d = some k
    by_cases hkeep : keep = m.uid
    · rw [if_pos hkeep]
      exact h
    · rw [if_neg hkeep]
      exact h

theorem classifyList_lookup_mono (mb : String) (crit : Criteria) :
    ∀ (ms : List Msg) (st : ClassSt) {mb2 d : String} {k : Nat},
    dbLookup st.db mb2 d = some k →
    dbLookup (classifyList mb crit st ms).db mb2 d = some k := by
  intro ms
  induction ms with
  | nil => intro st mb2 d k h; exact h
  | cons m ms2 ih =>
    intro st mb2 d k h
    exact ih (classifyOne mb crit st m) (classifyOne_lookup_mono mb crit st m h)

theorem classifyOne_lookup_other (mb : String) (crit : Criteria) (st : ClassSt) (m : Msg)
    {d : String} (hd : digestOf crit m ≠ d) :
    dbLookup (classifyOne mb crit st m).db mb d = dbLookup st.db mb d := by
  simp only [classifyOne]
  cases hl : dbLookup st.db mb (digestOf crit m) with
  | none =>
    show dbLookup (dbInsert st.db mb (digestOf crit m) m.uid) mb d = _
    exact dbInsert_lookup_other st.db mb (digestOf crit m) m.uid
      (fun hcon => hd hcon.2.symm)
  | some keep =>
    show dbLookup (if keep = m.uid then
        ({ st with kept_existing := st.kept_existing + 1 } : ClassSt)
      else { st with delete_uids := st.delete_uids ++ [m.uid] }).db mb d = _
    by_cases hkeep : keep = m.uid
    · rw [if_pos hkeep]
    · rw [if_neg hkeep]

theorem classifyList_first_writer (mb : String) (crit : Criteria) :
    ∀ (ms : List Msg) (st : ClassSt) {d : String},
    dbLookup st.db mb d = none →
    dbLookup (classifyList mb crit st ms).db mb d
      = (ms.find? (fun m => digestOf crit m = d)).map Msg.uid := by
  intro ms
  induction ms with
  | nil => intro st d h; exact h
  | cons m ms2 ih =>
    intro st d h
    show dbLookup (classifyList mb crit (classifyOne mb crit st m) ms2).db mb d = _
    rw [List.find?_cons]
    by_cases hd : digestOf crit m = d
    · rw [show (decide (digestOf crit m = d)) = true from by simp [hd]]
      have hself : dbLookup (classifyOne mb crit st m).db mb d = some m.uid := by
        simp only [classifyOne]
        rw [show dbLookup st.db mb (digestOf crit m) = none from hd ▸ h]
        show dbLookup (dbInsert st.db mb (digestOf crit m) m.uid) mb d = some m.uid
        rw [hd]
        exact dbInsert_lookup_self st.db mb d m.uid
      rw [classifyList_lookup_mono mb crit ms2 _ hself]
      rfl
    · rw [show (decide (digestOf crit m = d)) = false from by simp [hd]]
      rw [ih (classifyOne mb crit st m) (by rw [classifyOne_lookup_other mb crit st m hd]; exact h)]

theorem classifyOne_keys (mb : String) (crit : Criteria) (st : ClassSt) (m : Msg)
    (h : (st.db.rows.map rowKey).Nodup) :
    ((classifyOne mb crit st m).db.rows.map rowKey).Nodup := by
  simp only [classifyOne]
  cases hl : dbLookup st.db mb (digestOf crit m) with
  | none =>
    show ((dbInsert st.db mb (digestOf crit m) m.uid).rows.map rowKey).Nodup
    unfold dbInsert
    rw [List.map_cons, List.nodup_cons]
    constructor
    · intro hmem
      rw [List.mem_map] at hmem
      obtain ⟨r, hr, hkey⟩ := hmem
      have hpred := List.of_mem_filter hr
      simp only [decide_eq_true_eq] at hpred
      unfold rowKey at hkey
      exact hpred ⟨congrArg Prod.fst hkey, congrArg Prod.snd hkey⟩
    · exact List.Nodup.sublist (List.Sublist.map rowKey (List.filter_sublist _)) h
  | some keep =>
    show (((if keep = m.uid then
        ({ st with kept_existing := st.kept_existing + 1 } : ClassSt)
      else { st with delete_uids := st.delete_uids ++ [m.uid] }).db).rows.map rowKey).Nodup
    by_cases hkeep : keep = m.uid
    · rw [if_pos hkeep]
      exact h
    · rw [if_neg hkeep]
      exact h

theorem classifyList_keys (mb : String) (crit : Criteria) :
    ∀ (ms : List Msg) (st : ClassSt), (st.db.rows.map rowKey).Nodup →
    ((classifyList mb crit st ms).db.rows.map rowKey).Nodup := by
  intro ms
  induction ms with
  | nil => intro st h; exact h
  | cons m ms2 ih =>
    intro st h
    exact ih (classifyOne mb crit st m) (classifyOne_keys mb crit st m h)

/-! ### The digest store through the batch loop -/

theorem expungeStep_db (a : Args) (b : Nat) (st : RunSt) (evs : List Event) :
    (expungeStep a b st evs).1.db = st.db := by
  unfold expungeStep
  split <;> rfl

theorem processBatch_db (a : Args) (b : Nat) (st : RunSt) (batch : List Nat) :
    (processBatch a b st batch).1.db
      = dbCommit (classifyList a.mailbox a.criteria
          ⟨st.db, st.kept_new, st.kept_existing, []⟩ (fetchBatch st.server batch)).db := by
  simp only [processBatch]
  repeat' split
  all_goals simp only [expungeStep_db]

theorem runBatches_cons_crashed (a : Args) (idx : Nat) (st : RunSt) (batch : List Nat)
    (rest : List (List Nat)) (hcr : st.crashed = true) :
    runBatches a idx st (batch :: rest) = (st, []) := by
  simp [runBatches, hcr]

theorem runBatches_cons (a : Args) (idx : Nat) (st : RunSt) (batch : List Nat)
    (rest : List (List Nat)) (hcr : st.crashed = false) :
    runBatches a idx st (batch :: rest)
      = ((runBatches a (idx + 1) (processBatch a (idx + 1) st batch).1 rest).1,
         (processBatch a (idx + 1) st batch).2 ++
           (runBatches a (idx + 1) (processBatch a (idx + 1) st batch).1 rest).2) := by
  simp [runBatches, hcr]

theorem runBatches_db_mono (a : Args) : ∀ (bs : List (List Nat)) (idx : Nat) (st : RunSt)
    {mb2 d : String} {k : Nat}, dbLookup st.db mb2 d = some k →
    dbLookup (runBatches a idx st bs).1.db mb2 d = some k ∧
    (lookupRows st.db.committed mb2 d = some k →
      lookupRows (runBatches a idx st bs).1.db.committed mb2 d = some k) := by
  intro bs
  induction bs with
  | nil => intro idx st mb2 d k h; exact ⟨h, fun hc => hc⟩
  | cons batch rest ih =>
    intro idx st mb2 d k h
    by_cases hcr : st.crashed = true
    · rw [runBatches_cons_crashed a idx st batch rest hcr]
      exact ⟨h, fun hc => hc⟩
    · rw [runBatches_cons a idx st batch rest (by revert hcr; cases st.crashed <;> simp)]
      have hstep : dbLookup (processBatch a (idx + 1) st batch).1.db mb2 d = some k := by
        rw [processBatch_db]
        exact classifyList_lookup_mono a.mailbox a.criteria _ _ h
      have hcomm : lookupRows (processBatch a (idx + 1) st batch).1.db.committed mb2 d
          = some k := by
        rw [processBatch_db]
        exact classifyList_lookup_mono a.mailbox a.criteria _ _ h
      obtain ⟨h1, h2⟩ := ih (idx + 1) (processBatch a (idx + 1) st batch).1 hstep
      exact ⟨h1, fun _ => h2 hcomm⟩

theorem runMain_db (a : Args) (uids : List Nat) (server : Server) (db0 : Db)
    (script : List Bool) :
    (runMain a uids server db0 script).1.db
      = (runBatches a 0 ⟨db0, server, 0, 0, 0, script, false⟩ (chunk_iter uids a.chunk)).1.db := by
  simp only [runMain]
  split <;> rfl

/-! ### Claim C2 -/

/-- Claim C2: for every (mailbox, fingerprint) pair the digest store
holds at most one keeper row, the keeper is the first message in
processing order that produced the fingerprint, and a recorded keeper
is never changed afterwards:
(1) classification preserves primary-key uniqueness of the rows;
(2) starting from a store with no record for a fingerprint, after
processing a summary sequence the recorded keeper for it is the UID of
the first summary that produced it (and absent if none did), so
insertion happens only on lookup miss;
(3) a recorded keeper is untouched by any further classification;
(4) a keeper recorded in the store (durably, for the committed part)
is still recorded, unchanged, after a whole pipeline run. -/
theorem claim_C2 :
    (∀ (mb : String) (crit : Criteria) (st : ClassSt) (ms : List Msg),
      (st.db.rows.map rowKey).Nodup →
      ((classifyList mb crit st ms).db.rows.map rowKey).Nodup)
    ∧ (∀ (mb : String) (crit : Criteria) (st : ClassSt) (ms : List Msg) (d : String),
        dbLookup st.db mb d = none →
        dbLookup (classifyList mb crit st ms).db mb d
          = (ms.find? (fun m => digestOf crit m = d)).map Msg.uid)
    ∧ (∀ (mb : String) (crit : Criteria) (st : ClassSt) (ms : List Msg)
        (mb2 d : String) (k : Nat), dbLookup st.db mb2 d = some k →
        dbLookup (classifyList mb crit st ms).db mb2 d = some k)
    ∧ (∀ (a : Args) (uids : List Nat) (server : Server) (db0 : Db) (script : List Bool)
        (mb2 d : String) (k : Nat), dbLookup db0 mb2 d = some k →
        dbLookup (runMain a uids server db0 script).1.db mb2 d = some k
        ∧ (lookupRows db0.committed mb2 d = some k →
            lookupRows (runMain a uids server db0 script).1.db.committed mb2 d = some k)) := by
  refine ⟨?_, ?_, ?_, ?_⟩
  · intro mb crit st ms h
    exact classifyList_keys mb crit ms st h
  · intro mb crit st ms d h
    exact classifyList_first_writer mb crit ms st h
  · intro mb crit st ms mb2 d k h
    exact classifyList_lookup_mono mb crit ms st h
  · intro a uids server db0 script mb2 d k h
    rw [runMain_db]
    exact runBatches_db_mono a (chunk_iter uids a.chunk) 0 ⟨db0, server, 0, 0, 0, script, false⟩ h

theorem claim_C2_witness :
    ((classifyList "INBOX" .msgid_first ⟨⟨[], []⟩, 0, 0, []⟩
        [⟨1, "<a@x>", "", "", "", "", 9, false⟩, ⟨2, "<a@x>", "", "", "", "", 9, false⟩]).db.rows.map
      rowKey).Nodup
    ∧ dbLookup (classifyList "INBOX" .msgid_first ⟨⟨[], []⟩, 0, 0, []⟩
        [⟨1, "<a@x>", "", "", "", "", 9, false⟩,
         ⟨2, "<a@x>", "", "", "", "", 9, false⟩]).db "INBOX"
        (digestOf .msgid_first ⟨1, "<a@x>", "", "", "", "", 9, false⟩)
      = some 1
    ∧ dbLookup (runMain ⟨"INBOX", .msgid_first, 2, 1, 1, false, 1⟩ [1, 2]
        [⟨1, "<a@x>", "", "", "", "", 9, false⟩, ⟨2, "<a@x>", "", "", "", "", 9, false⟩]
        ⟨[⟨"INBOX", "OLD", 7⟩], [⟨"INBOX", "OLD", 7⟩]⟩ []).1.db "INBOX" "OLD" = some 7 := by
  refine ⟨claim_C2.1 "INBOX" .msgid_first _ _ (by decide), ?_, ?_⟩
  · have h := claim_C2.2.1 "INBOX" .msgid_first ⟨⟨[], []⟩, 0, 0, []⟩
      [⟨1, "<a@x>", "", "", "", "", 9, false⟩, ⟨2, "<a@x>", "", "", "", "", 9, false⟩]
      (digestOf .msgid_first ⟨1, "<a@x>", "", "", "", "", 9, false⟩) rfl
    rw [h]
    rw [show List.find? (fun m => digestOf .msgid_first m
          = digestOf .msgid_first ⟨1, "<a@x>", "", "", "", "", 9, false⟩)
        [⟨1, "<a@x>", "", "", "", "", 9, false⟩, ⟨2, "<a@x>", "", "", "", "", 9, false⟩]
        = some ⟨1, "<a@x>", "", "", "", "", 9, false⟩ from by decide]
    rfl
  · exact (claim_C2.2.2.2 ⟨"INBOX", .msgid_first, 2, 1, 1, false, 1⟩ [1, 2]
      [⟨1, "<a@x>", "", "", "", "", 9, false⟩, ⟨2, "<a@x>", "", "", "", "", 9, false⟩]
      ⟨[⟨"INBOX", "OLD", 7⟩], [⟨"INBOX", "OLD", 7⟩]⟩ [] "INBOX" "OLD" 7 rfl).1

/-! ### Trace structure of one batch iteration -/

theorem chunk_iter_mem_subset {l : List Nat} {k : Nat} {part : List Nat}
    (hp : part ∈ chunk_iter l k) {x : Nat} (hx : x ∈ part) : x ∈ l := by
  by_cases hk : 0 < k
  · rw [← chunk_iter_flatten hk l]
    exact List.mem_flatten.mpr ⟨part, hp, hx⟩
  · have hk0 : k = 0 := by omega
    subst hk0
    have hempty : chunk_iter l 0 = [] := by
      cases l <;> simp [chunk_iter, chunkIterAux]
    rw [hempty] at hp
    exact absurd hp (by simp)

theorem filter_undeleted_server_subset {sv : Server} {uids : List Nat} {k : Nat} {u : Nat}
    (h : u ∈ filter_undeleted (serverFlagsResp sv) uids k) : u ∈ uids := by
  rw [filter_undeleted_eq] at h
  rw [List.mem_flatten] at h
  obtain ⟨l, hl, hul⟩ := h
  rw [List.mem_map] at hl
  obtain ⟨part, hp, rfl⟩ := hl
  have : u ∈ part.filter (undeletedPred sv) := by
    rw [show ((match serverFlagsResp sv part with
        | none => ([] : List Nat)
        | some data => data.filterMap undeletedUidOf)) = part.filter (undeletedPred sv)
      from resp_items_parse sv part] at hul
    exact hul
  exact chunk_iter_mem_subset hp (List.mem_of_mem_filter this)

theorem expungeStep_trace (a : Args) (b : Nat) (st : RunSt) (evs : List Event) :
    (expungeStep a b st evs).2 = evs ++
      (if a.expunge_interval ≠ 0 ∧ b % a.expunge_interval = 0 ∧ ¬ a.dry_run then
        [Event.expunge b] else []) := by
  unfold expungeStep
  by_cases hc : a.expunge_interval ≠ 0 ∧ b % a.expunge_interval = 0 ∧ ¬ a.dry_run
  · rw [if_pos hc, if_pos hc]
  · rw [if_neg hc, if_neg hc, List.append_nil]

theorem expungeStep_server (a : Args) (b : Nat) (st : RunSt) (evs : List Event) :
    (expungeStep a b st evs).1.server =
      (if a.expunge_interval ≠ 0 ∧ b % a.expunge_interval = 0 ∧ ¬ a.dry_run then
        expungeServer st.server else st.server) := by
  unfold expungeStep
  by_cases hc : a.expunge_interval ≠ 0 ∧ b % a.expunge_interval = 0 ∧ ¬ a.dry_run
  · rw [if_pos hc, if_pos hc]
  · rw [if_neg hc, if_neg hc]

theorem expungeStep_fields (a : Args) (b : Nat) (st : RunSt) (evs : List Event) :
    (expungeStep a b st evs).1.script = st.script ∧
    (expungeStep a b st evs).1.crashed = st.crashed ∧
    (expungeStep a b st evs).1.kept_new = st.kept_new ∧
    (expungeStep a b st evs).1.kept_existing = st.kept_existing ∧
    (expungeStep a b st evs).1.dupes_marked = st.dupes_marked := by
  unfold expungeStep
  split <;> exact ⟨rfl, rfl, rfl, rfl, rfl⟩

/-- With dry_run set, one batch iteration issues exactly the FETCH and
the commit: no STORE and no EXPUNGE; the server and the fault script
are untouched. -/
theorem processBatch_dry (a : Args) (b : Nat) (st : RunSt) (batch : List Nat)
    (hdry : a.dry_run = true) :
    (processBatch a b st batch).2 = [Event.fetch b batch, Event.commit b]
    ∧ (processBatch a b st batch).1.server = st.server
    ∧ (processBatch a b st batch).1.script = st.script
    ∧ (processBatch a b st batch).1.crashed = st.crashed := by
  have hcond : ¬ (a.expunge_interval ≠ 0 ∧ b % a.expunge_interval = 0 ∧ ¬ a.dry_run) := by
    intro hcon
    rw [hdry] at hcon
    exact hcon.2.2 rfl
  simp only [processBatch]
  by_cases hdel : (classifyList a.mailbox a.criteria
      ⟨st.db, st.kept_new, st.kept_existing, []⟩ (fetchBatch st.server batch)).delete_uids = []
  · rw [if_pos hdel]
    rw [show (expungeStep a b _ [Event.fetch b batch, Event.commit b]) =
        (_, [Event.fetch b batch, Event.commit b]) from by
      unfold expungeStep
      rw [if_neg hcond]]
    exact ⟨rfl, rfl, rfl, rfl⟩
  · rw [if_neg hdel, if_pos hdry]
    rw [show (expungeStep a b _ [Event.fetch b batch, Event.commit b]) =
        (_, [Event.fetch b batch, Event.commit b]) from by
      unfold expungeStep
      rw [if_neg hcond]]
    exact ⟨rfl, rfl, rfl, rfl⟩

/-- The trace of one batch iteration always starts with the FETCH and
the store commit, and everything after the commit is a delete-mark
STORE over a subset of the duplicates this batch collected, a flags
FETCH, or the periodic expunge, all tagged with this batch. -/
theorem processBatch_shape (a : Args) (b : Nat) (st : RunSt) (batch : List Nat) :
    ∃ tail, (processBatch a b st batch).2 = Event.fetch b batch :: Event.commit b :: tail
    ∧ ∀ ev ∈ tail,
        (∃ part ap, ev = Event.store b part ap ∧
          ∀ u ∈ part, u ∈ (classifyList a.mailbox a.criteria
            ⟨st.db, st.kept_new, st.kept_existing, []⟩
            (fetchBatch st.server batch)).delete_uids)
        ∨ (∃ part, ev = Event.fetchFlags b part)
        ∨ ev = Event.expunge b := by
  simp only [processBatch]
  set c := classifyList a.mailbox a.criteria
    ⟨st.db, st.kept_new, st.kept_existing, []⟩ (fetchBatch st.server batch) with hc
  have hexp : ∀ (st2 : RunSt) (evs : List Event),
      (expungeStep a b st2 evs).2 = evs ++
        (if a.expunge_interval ≠ 0 ∧ b % a.expunge_interval = 0 ∧ ¬ a.dry_run then
          [Event.expunge b] else []) := fun st2 evs => expungeStep_trace a b st2 evs
  have hsufmem : ∀ ev ∈ (if a.expunge_interval ≠ 0 ∧ b % a.expunge_interval = 0 ∧
      ¬ a.dry_run then [Event.expunge b] else ([] : List Event)),
      ev = Event.expunge b := by
    intro ev hev
    by_cases hcond : a.expunge_interval ≠ 0 ∧ b % a.expunge_interval = 0 ∧ ¬ a.dry_run
    · rw [if_pos hcond] at hev
      simpa using hev
    · rw [if_neg hcond] at hev
      exact absurd hev (by simp)
  have hstore1 : ∀ ev ∈ (mark_delete b st.server c.delete_uids a.store_chunk st.script).2.1,
      ∃ part ap, ev = Event.store b part ap ∧ ∀ u ∈ part, u ∈ c.delete_uids := by
    intro ev hev
    obtain ⟨part, hp, ap, he⟩ := markDeleteGo_store_sub b _ st.server st.script ev hev
    exact ⟨part, ap, he, fun u hu => chunk_iter_mem_subset hp hu⟩
  split
  · rw [hexp]
    refine ⟨_, rfl, ?_⟩
    intro ev hev
    exact Or.inr (Or.inr (hsufmem ev hev))
  · split
    · rw [hexp]
      refine ⟨_, rfl, ?_⟩
      intro ev hev
      exact Or.inr (Or.inr (hsufmem ev hev))
    · split
      · rw [hexp]
        refine ⟨(mark_delete b st.server c.delete_uids a.store_chunk st.script).2.1 ++
          (if a.expunge_interval ≠ 0 ∧ b % a.expunge_interval = 0 ∧ ¬ a.dry_run then
            [Event.expunge b] else []), by simp, ?_⟩
        intro ev hev
        rw [List.mem_append] at hev
        rcases hev with hev | hev
        · exact Or.inl (hstore1 ev hev)
        · exact Or.inr (Or.inr (hsufmem ev hev))
      · split
        · rw [hexp]
          refine ⟨(mark_delete b st.server c.delete_uids a.store_chunk st.script).2.1 ++
            (((chunk_iter c.delete_uids a.fetch_flags_chunk).map
              (fun part => Event.fetchFlags b part)) ++
            (if a.expunge_interval ≠ 0 ∧ b % a.expunge_interval = 0 ∧ ¬ a.dry_run then
              [Event.expunge b] else [])), by simp, ?_⟩
          intro ev hev
          simp only [List.mem_append] at hev
          rcases hev with hev | hev | hev
          · exact Or.inl (hstore1 ev hev)
          · rw [List.mem_map] at hev
            obtain ⟨part, _, rfl⟩ := hev
            exact Or.inr (Or.inl ⟨part, rfl⟩)
          · exact Or.inr (Or.inr (hsufmem ev hev))
        · split
          · rw [hexp]
            refine ⟨(mark_delete b st.server c.delete_uids a.store_chunk st.script).2.1 ++
              (((chunk_iter c.delete_uids a.fetch_flags_chunk).map
                (fun part => Event.fetchFlags b part)) ++
              ((mark_delete b (mark_delete b st.server c.delete_uids a.store_chunk
                  st.script).1
                (filter_undeleted (serverFlagsResp (mark_delete b st.server c.delete_uids
                  a.store_chunk st.script).1) c.delete_uids a.fetch_flags_chunk)
                a.store_chunk (mark_delete b st.server c.delete_uids a.store_chunk
                  st.script).2.2.1).2.1 ++
              (if a.expunge_interval ≠ 0 ∧ b % a.expunge_interval = 0 ∧ ¬ a.dry_run then
                [Event.expunge b] else []))), by simp, ?_⟩
            intro ev hev
            simp only [List.mem_append] at hev
            rcases hev with hev | hev | hev | hev
            · exact Or.inl (hstore1 ev hev)
            · rw [List.mem_map] at hev
              obtain ⟨part, _, rfl⟩ := hev
              exact Or.inr (Or.inl ⟨part, rfl⟩)
            · obtain ⟨part, hp, ap, he⟩ := markDeleteGo_store_sub b _ _ _ ev hev
              exact Or.inl ⟨part, ap, he, fun u hu =>
                filter_undeleted_server_subset (chunk_iter_mem_subset hp hu)⟩
            · exact Or.inr (Or.inr (hsufmem ev hev))
          · refine ⟨(mark_delete b st.server c.delete_uids a.store_chunk st.script).2.1 ++
              (((chunk_iter c.delete_uids a.fetch_flags_chunk).map
                (fun part => Event.fetchFlags b part)) ++
              (mark_delete b (mark_delete b st.server c.delete_uids a.store_chunk
                  st.script).1
                (filter_undeleted (serverFlagsResp (mark_delete b st.server c.delete_uids
                  a.store_chunk st.script).1) c.delete_uids a.fetch_flags_chunk)
                a.store_chunk (mark_delete b st.server c.delete_uids a.store_chunk
                  st.script).2.2.1).2.1), by simp, ?_⟩
            intro ev hev
            simp only [List.mem_append] at hev
            rcases hev with hev | hev | hev
            · exact Or.inl (hstore1 ev hev)
            · rw [List.mem_map] at hev
              obtain ⟨part, _, rfl⟩ := hev
              exact Or.inr (Or.inl ⟨part, rfl⟩)
            · obtain ⟨part, hp, ap, he⟩ := markDeleteGo_store_sub b _ _ _ ev hev
              exact Or.inl ⟨part, ap, he, fun u hu =>
                filter_undeleted_server_subset (chunk_iter_mem_subset hp hu)⟩

theorem destructiveOf_tag {b : Nat} {ev : Event} (h : destructiveOf b ev = true) :
    Event.tag ev = some b := by
  cases ev <;> simp_all [destructiveOf, Event.tag]

theorem processBatch_tag (a : Args) (bidx : Nat) (st : RunSt) (batch : List Nat) :
    ∀ ev ∈ (processBatch a bidx st batch).2, Event.tag ev = some bidx := by
  obtain ⟨tail, htr, htail⟩ := processBatch_shape a bidx st batch
  rw [htr]
  intro ev hev
  rw [List.mem_cons, List.mem_cons] at hev
  rcases hev with rfl | rfl | hev
  · rfl
  · rfl
  · rcases htail ev hev with ⟨part, ap, rfl, _⟩ | ⟨part, rfl⟩ | rfl <;> rfl

theorem commitBefore_of_free {b : Nat} {evs : List Event}
    (h : ∀ ev ∈ evs, destructiveOf b ev = false) : CommitBefore b evs := by
  intro l1 ev l2 heq hd
  have hmem : ev ∈ evs := by
    rw [heq]
    simp
  rw [h ev hmem] at hd
  exact absurd hd (by simp)

theorem commitBefore_append_free {b : Nat} {A B : List Event}
    (hA : ∀ ev ∈ A, destructiveOf b ev = false) (hB : CommitBefore b B) :
    CommitBefore b (A ++ B) := by
  intro l1 ev l2 heq hd
  rcases List.append_eq_append_iff.mp heq.symm with ⟨a2, hla, hb⟩ | ⟨c2, hl1, hcl⟩
  · cases a2 with
    | nil =>
      have hb2 : B = ev :: l2 := by simpa using hb.symm
      exact absurd (hB [] ev l2 hb2 hd) (by simp)
    | cons x a3 =>
      have h1 : ev = x := by
        injection hb with h1 _
      have hxA : x ∈ A := by
        rw [hla]
        simp
      rw [h1, hA x hxA] at hd
      exact absurd hd (by simp)
  · have := hB c2 ev l2 hcl hd
    rw [hl1]
    exact List.mem_append.mpr (Or.inr this)

theorem commitBefore_commit_head {b : Nat} {P Q : List Event}
    (hP : ∀ ev ∈ P, destructiveOf b ev = false) :
    CommitBefore b (P ++ Event.commit b :: Q) := by
  intro l1 ev l2 heq hd
  rcases List.append_eq_append_iff.mp heq.symm with ⟨a2, hla, hb⟩ | ⟨c2, hl1, hcl⟩
  · cases a2 with
    | nil =>
      have h1 : ev = Event.commit b := by
        injection (by simpa using hb : (ev :: l2 : List Event) = Event.commit b :: Q) with h1 _
      rw [h1] at hd
      exact absurd hd (by simp [destructiveOf])
    | cons x a3 =>
      have h1 : ev = x := by
        injection hb with h1 _
      have hxP : x ∈ P := by
        rw [hla]
        simp
      rw [h1, hP x hxP] at hd
      exact absurd hd (by simp)
  · cases c2 with
    | nil =>
      have h1 : ev = Event.commit b := by
        injection (by simpa using hcl : (Event.commit b :: Q : List Event) = ev :: l2) with h1 _
        exact h1.symm
      rw [h1] at hd
      exact absurd hd (by simp [destructiveOf])
    | cons x c3 =>
      have h1 : x = Event.commit b := by
        injection hcl with h1 _
        exact h1.symm
      rw [hl1, h1]
      exact List.mem_append.mpr (Or.inr (List.mem_cons_self _ _))

theorem runBatches_commitBefore (a : Args) (b : Nat) (bs : List (List Nat)) :
    ∀ (idx : Nat) (st : RunSt) (F : List Event),
      (∀ ev ∈ F, destructiveOf b ev = false) →
      CommitBefore b ((runBatches a idx st bs).2 ++ F) := by
  induction bs with
  | nil =>
    intro idx st F hF
    rw [show (runBatches a idx st []).2 = [] from rfl, List.nil_append]
    exact commitBefore_of_free hF
  | cons batch rest ih =>
    intro idx st F hF
    by_cases hcr : st.crashed = true
    · rw [show (runBatches a idx st (batch :: rest)).2 = [] from by
        rw [runBatches_cons_crashed a idx st batch rest hcr], List.nil_append]
      exact commitBefore_of_free hF
    · rw [show (runBatches a idx st (batch :: rest)).2 =
          (processBatch a (idx + 1) st batch).2 ++
            (runBatches a (idx + 1) (processBatch a (idx + 1) st batch).1 rest).2 from by
        rw [runBatches_cons a idx st batch rest (by revert hcr; cases st.crashed <;> simp)]]
      rw [List.append_assoc]
      by_cases hb : b = idx + 1
      · obtain ⟨tail, htr, _⟩ := processBatch_shape a (idx + 1) st batch
        rw [htr, ← hb]
        exact commitBefore_commit_head (P := [Event.fetch b batch])
          (by intro ev hev
              rw [show ev = Event.fetch b batch from by simpa using hev]
              rfl)
      · apply commitBefore_append_free
        · intro ev hev
          cases hD : destructiveOf b ev with
          | false => rfl
          | true =>
            exfalso
            have h1 := destructiveOf_tag hD
            rw [processBatch_tag a (idx + 1) st batch ev hev] at h1
            exact hb (Option.some.inj h1).symm
        · exact ih (idx + 1) _ F hF

theorem classifyOne_keeper (mb : String) (crit : Criteria) (st : ClassSt) (m : Msg)
    (h : ∀ u ∈ st.delete_uids, ∃ d k, dbLookup st.db mb d = some k ∧ k ≠ u) :
    ∀ u ∈ (classifyOne mb crit st m).delete_uids,
      ∃ d k, dbLookup (classifyOne mb crit st m).db mb d = some k ∧ k ≠ u := by
  intro u
  simp only [classifyOne]
  cases hl : dbLookup st.db mb (digestOf crit m) with
  | none =>
    show u ∈ st.delete_uids → ∃ d k,
      dbLookup (dbInsert st.db mb (digestOf crit m) m.uid) mb d = some k ∧ k ≠ u
    intro hu
    obtain ⟨d, k, hdk, hne⟩ := h u hu
    refine ⟨d, k, ?_, hne⟩
    by_cases heq : mb = mb ∧ d = digestOf crit m
    · rw [heq.2] at hdk
      rw [hdk] at hl
      exact absurd hl (by simp)
    · rw [dbInsert_lookup_other st.db mb (digestOf crit m) m.uid heq]
      exact hdk
  | some keep =>
    show u ∈ (if keep = m.uid then
        ({ st with kept_existing := st.kept_existing + 1 } : ClassSt)
      else ({ st with delete_uids := st.delete_uids ++ [m.uid] } : ClassSt)).delete_uids →
      ∃ d k, dbLookup (if keep = m.uid then
        ({ st with kept_existing := st.kept_existing + 1 } : ClassSt)
      else ({ st with delete_uids := st.delete_uids ++ [m.uid] } : ClassSt)).db mb d
        = some k ∧ k ≠ u
    by_cases hk : keep = m.uid
    · rw [if_pos hk]
      exact h u
    · rw [if_neg hk]
      show u ∈ st.delete_uids ++ [m.uid] → ∃ d k, dbLookup st.db mb d = some k ∧ k ≠ u
      intro hu
      rcases List.mem_append.mp hu with hu | hu
      · exact h u hu
      · rw [show u = m.uid from by simpa using hu]
        exact ⟨digestOf crit m, keep, hl, hk⟩

theorem classifyList_keeper (mb : String) (crit : Criteria) :
    ∀ (ms : List Msg) (st : ClassSt),
      (∀ u ∈ st.delete_uids, ∃ d k, dbLookup st.db mb d = some k ∧ k ≠ u) →
      ∀ u ∈ (classifyList mb crit st ms).delete_uids,
        ∃ d k, dbLookup (classifyList mb crit st ms).db mb d = some k ∧ k ≠ u := by
  intro ms
  induction ms with
  | nil => intro st h; exact h
  | cons m rest ih => intro st h; exact ih (classifyOne mb crit st m) (classifyOne_keeper mb crit st m h)

theorem processBatch_store_keeper (a : Args) (b : Nat) (st : RunSt) (batch : List Nat)
    {us : List Nat} {ap : Bool}
    (hmem : Event.store b us ap ∈ (processBatch a b st batch).2) :
    ∀ u ∈ us, ∃ d k,
      lookupRows (processBatch a b st batch).1.db.committed a.mailbox d = some k ∧ k ≠ u := by
  obtain ⟨tail, htr, htail⟩ := processBatch_shape a b st batch
  rw [htr] at hmem
  rw [List.mem_cons, List.mem_cons] at hmem
  rcases hmem with h | h | h
  · exact absurd h (by simp)
  · exact absurd h (by simp)
  · rcases htail _ h with ⟨part, ap2, he, hsub⟩ | ⟨part, he⟩ | he
    · injection he with h1 h2 h3
      subst h2
      intro u hu
      obtain ⟨d, k, hdk, hne⟩ := classifyList_keeper a.mailbox a.criteria
        (fetchBatch st.server batch) ⟨st.db, st.kept_new, st.kept_existing, []⟩
        (fun u2 hu2 => absurd hu2 (by simp)) u (hsub u hu)
      refine ⟨d, k, ?_, hne⟩
      rw [processBatch_db]
      exact hdk
    · exact absurd he (by simp)
    · exact absurd he (by simp)

/-- C1: in the full run trace, every destructive remote operation tagged
with a batch (a delete-mark STORE or a mid-run expunge) is preceded by
the digest-store commit of that batch; and every UID targeted by a
delete-mark STORE of a batch has, in the database state durably
committed by that batch, a keeper entry recording a different UID, so a
delete-mark is only ever issued for an identifier whose keeper decision
is already durably committed. -/
theorem claim_C1 :
    (∀ (a : Args) (uids : List Nat) (server : Server) (db0 : Db)
        (script : List Bool) (b : Nat),
        CommitBefore b (runMain a uids server db0 script).2)
    ∧ (∀ (a : Args) (b : Nat) (st : RunSt) (batch : List Nat) (us : List Nat) (ap : Bool),
        Event.store b us ap ∈ (processBatch a b st batch).2 →
        ∀ u ∈ us, ∃ d k,
          lookupRows (processBatch a b st batch).1.db.committed a.mailbox d = some k
            ∧ k ≠ u) := by
  constructor
  · intro a uids server db0 script b
    simp only [runMain]
    split
    · exact runBatches_commitBefore a b (chunk_iter uids a.chunk) 0
        ⟨db0, server, 0, 0, 0, script, false⟩ [Event.expungeFinal]
        (by intro ev hev
            rw [show ev = Event.expungeFinal from by simpa using hev]
            rfl)
    · have h := runBatches_commitBefore a b (chunk_iter uids a.chunk) 0
        ⟨db0, server, 0, 0, 0, script, false⟩ []
        (by intro ev hev
            exact absurd hev (by simp))
      rw [List.append_nil] at h
      exact h
  · intro a b st batch us ap hmem
    exact processBatch_store_keeper a b st batch hmem

theorem claim_C1_witness :
    (Event.store 1 [2] true ∈ (processBatch ⟨"INBOX", .msgid_first, 2, 1, 1, false, 0⟩ 1
        ⟨⟨[], []⟩, [⟨1, "<a@x>", "", "", "", "", 9, false⟩,
                    ⟨2, "<a@x>", "", "", "", "", 9, false⟩], 0, 0, 0, [], false⟩ [1, 2]).2)
    ∧ (∃ d k, lookupRows (processBatch ⟨"INBOX", .msgid_first, 2, 1, 1, false, 0⟩ 1
        ⟨⟨[], []⟩, [⟨1, "<a@x>", "", "", "", "", 9, false⟩,
                    ⟨2, "<a@x>", "", "", "", "", 9, false⟩],
        0, 0, 0, [], false⟩ [1, 2]).1.db.committed "INBOX" d = some k ∧ k ≠ 2)
    ∧ CommitBefore 1 (runMain ⟨"INBOX", .msgid_first, 2, 1, 1, false, 0⟩ [1, 2]
        [⟨1, "<a@x>", "", "", "", "", 9, false⟩, ⟨2, "<a@x>", "", "", "", "", 9, false⟩]
        ⟨[], []⟩ []).2 := by
  refine ⟨by decide, ?_, claim_C1.1 ⟨"INBOX", .msgid_first, 2, 1, 1, false, 0⟩ [1, 2]
    [⟨1, "<a@x>", "", "", "", "", 9, false⟩, ⟨2, "<a@x>", "", "", "", "", 9, false⟩]
    ⟨[], []⟩ [] 1⟩
  exact claim_C1.2 ⟨"INBOX", .msgid_first, 2, 1, 1, false, 0⟩ 1
    ⟨⟨[], []⟩, [⟨1, "<a@x>", "", "", "", "", 9, false⟩,
                ⟨2, "<a@x>", "", "", "", "", 9, false⟩], 0, 0, 0, [], false⟩
    [1, 2] [2] true (by decide) 2 (by decide)

/-! ### Claim C8: batch slicing and the expunge cadence -/

theorem expunge_mem_step (a : Args) (b b2 : Nat) (st : RunSt) (evs : List Event)
    (hevs : ∀ ev ∈ evs, ∀ b3, ev ≠ Event.expunge b3) :
    (Event.expunge b2 ∈ (expungeStep a b st evs).2
      ↔ b2 = b ∧ a.expunge_interval ≠ 0 ∧ b % a.expunge_interval = 0 ∧ ¬ a.dry_run) := by
  rw [expungeStep_trace, List.mem_append]
  constructor
  · rintro (h | h)
    · exact absurd rfl (hevs _ h b2)
    · by_cases hc : a.expunge_interval ≠ 0 ∧ b % a.expunge_interval = 0 ∧ ¬ a.dry_run
      · rw [if_pos hc] at h
        have h1 : Event.expunge b2 = Event.expunge b := by simpa using h
        injection h1 with h1
        exact ⟨h1, hc⟩
      · rw [if_neg hc] at h
        exact absurd h (by simp)
  · rintro ⟨rfl, hc⟩
    rw [if_pos hc]
    exact Or.inr (by simp)

theorem processBatch_clean (a : Args) (b : Nat) (st : RunSt) (batch : List Nat)
    (hs : st.script = []) :
    (processBatch a b st batch).1.script = []
    ∧ (processBatch a b st batch).1.crashed = st.crashed
    ∧ ∀ b2 : Nat, (Event.expunge b2 ∈ (processBatch a b st batch).2
        ↔ b2 = b ∧ a.expunge_interval ≠ 0 ∧ b % a.expunge_interval = 0 ∧ ¬ a.dry_run) := by
  simp only [processBatch, mark_delete, hs]
  rw [markDeleteGo_nil_script]
  split
  · refine ⟨(expungeStep_fields a b _ _).1, (expungeStep_fields a b _ _).2.1, ?_⟩
    intro b2
    exact expunge_mem_step a b b2 _ _ (by
      intro ev hev b3 hcon
      subst hcon
      simp at hev)
  · split
    · refine ⟨(expungeStep_fields a b _ _).1, (expungeStep_fields a b _ _).2.1, ?_⟩
      intro b2
      exact expunge_mem_step a b b2 _ _ (by
        intro ev hev b3 hcon
        subst hcon
        simp at hev)
    · split
      · refine ⟨(expungeStep_fields a b _ _).1, (expungeStep_fields a b _ _).2.1, ?_⟩
        intro b2
        exact expunge_mem_step a b b2 _ _ (by
          intro ev hev b3 hcon
          subst hcon
          rcases List.mem_append.mp hev with h | h
          · simp at h
          · rw [List.mem_map] at h
            obtain ⟨part, _, hpe⟩ := h
            simp at hpe)
      · rename_i hab
        exact absurd rfl hab

theorem runBatches_clean (a : Args) (bs : List (List Nat)) :
    ∀ (idx : Nat) (st : RunSt), st.script = [] → st.crashed = false →
      (runBatches a idx st bs).1.script = []
      ∧ (runBatches a idx st bs).1.crashed = false
      ∧ ∀ b2 : Nat, (Event.expunge b2 ∈ (runBatches a idx st bs).2
          ↔ (idx < b2 ∧ b2 ≤ idx + bs.length ∧ a.expunge_interval ≠ 0
             ∧ b2 % a.expunge_interval = 0 ∧ ¬ a.dry_run)) := by
  induction bs with
  | nil =>
    intro idx st hs hcr
    refine ⟨hs, hcr, ?_⟩
    intro b2
    constructor
    · intro h
      exact absurd h (by simp [runBatches])
    · rintro ⟨h1, h2, _⟩
      exfalso
      simp only [List.length_nil] at h2
      omega
  | cons batch rest ih =>
    intro idx st hs hcr
    rw [runBatches_cons a idx st batch rest hcr]
    obtain ⟨hps, hpc, hpe⟩ := processBatch_clean a (idx + 1) st batch hs
    obtain ⟨hrs, hrc, hre⟩ := ih (idx + 1) (processBatch a (idx + 1) st batch).1 hps
      (by rw [hpc]; exact hcr)
    refine ⟨hrs, hrc, ?_⟩
    intro b2
    rw [show ((((runBatches a (idx + 1) (processBatch a (idx + 1) st batch).1 rest).1,
        (processBatch a (idx + 1) st batch).2 ++
          (runBatches a (idx + 1) (processBatch a (idx + 1) st batch).1 rest).2) :
        RunSt × List Event)).2 =
      (processBatch a (idx + 1) st batch).2 ++
        (runBatches a (idx + 1) (processBatch a (idx + 1) st batch).1 rest).2 from rfl]
    rw [List.mem_append, hpe b2, hre b2]
    simp only [List.length_cons]
    constructor
    · rintro (⟨rfl, hi, hm, hd⟩ | ⟨h1, h2, hi, hm, hd⟩)
      · exact ⟨by omega, by omega, hi, hm, hd⟩
      · exact ⟨by omega, by omega, hi, hm, hd⟩
    · rintro ⟨h1, h2, hi, hm, hd⟩
      by_cases hb : b2 = idx + 1
      · subst hb
        exact Or.inl ⟨rfl, hi, hm, hd⟩
      · exact Or.inr ⟨by omega, by omega, hi, hm, hd⟩

theorem runBatches_tag (a : Args) (bs : List (List Nat)) :
    ∀ (idx : Nat) (st : RunSt), ∀ ev ∈ (runBatches a idx st bs).2,
      ∃ t, Event.tag ev = some t := by
  induction bs with
  | nil =>
    intro idx st ev hev
    exact absurd hev (by simp [runBatches])
  | cons batch rest ih =>
    intro idx st ev hev
    by_cases hcr : st.crashed = true
    · rw [runBatches_cons_crashed a idx st batch rest hcr] at hev
      exact absurd hev (by simp)
    · rw [runBatches_cons a idx st batch rest (by revert hcr; cases st.crashed <;> simp)] at hev
      rcases List.mem_append.mp hev with h | h
      · exact ⟨idx + 1, processBatch_tag a (idx + 1) st batch ev h⟩
      · exact ih (idx + 1) (processBatch a (idx + 1) st batch).1 ev h

theorem runMain_clean_expunge (a : Args) (uids : List Nat) (server : Server) (db0 : Db) :
    (∀ b2 : Nat, Event.expunge b2 ∈ (runMain a uids server db0 []).2
      ↔ (0 < b2 ∧ b2 ≤ (chunk_iter uids a.chunk).length ∧ a.expunge_interval ≠ 0
         ∧ b2 % a.expunge_interval = 0 ∧ ¬ a.dry_run))
    ∧ (Event.expungeFinal ∈ (runMain a uids server db0 []).2 ↔ ¬ a.dry_run) := by
  obtain ⟨hrs, hrc, hre⟩ := runBatches_clean a (chunk_iter uids a.chunk) 0
    ⟨db0, server, 0, 0, 0, [], false⟩ rfl rfl
  constructor
  · intro b2
    have hsplit : Event.expunge b2 ∈ (runMain a uids server db0 []).2 ↔
        Event.expunge b2 ∈ (runBatches a 0 ⟨db0, server, 0, 0, 0, [], false⟩
          (chunk_iter uids a.chunk)).2 := by
      simp only [runMain]
      split
      · rw [List.mem_append]
        constructor
        · rintro (h | h)
          · exact h
          · exact absurd (by simpa using h : Event.expunge b2 = Event.expungeFinal) (by simp)
        · intro h
          exact Or.inl h
      · exact Iff.rfl
    rw [hsplit, hre b2, Nat.zero_add]
  · simp only [runMain]
    split
    · rename_i hcond
      constructor
      · intro _
        exact hcond.1
      · intro _
        rw [List.mem_append]
        exact Or.inr (by simp)
    · rename_i hcond
      constructor
      · intro h
        obtain ⟨t, ht⟩ := runBatches_tag a (chunk_iter uids a.chunk) 0
          ⟨db0, server, 0, 0, 0, [], false⟩ Event.expungeFinal h
        simp [Event.tag] at ht
      · intro hnd
        exact absurd ⟨hnd, hrc⟩ hcond

/-- C8: with batch size c > 0, the batches are ceil(n/c) consecutive
slices of the candidate list in order (batch i is drop (i*c) take c, so
all have size c except a shorter final one, e.g. 7000 with c = 3000
gives 3000/3000/1000); in a fault-free run a mid-run expunge for batch
index b occurs exactly when 1 <= b <= number of batches, the expunge
interval is nonzero and divides b, and dry-run is off; and the final
expunge occurs exactly when dry-run is off. -/
theorem claim_C8 :
    (∀ (l : List Nat) (c : Nat), 0 < c →
      (chunk_iter l c).flatten = l
      ∧ (chunk_iter l c).length = (l.length + c - 1) / c
      ∧ ∀ i : Nat, (chunk_iter l c).get? i =
          if l.length ≤ i * c then none else some ((l.drop (i * c)).take c))
    ∧ (∀ (a : Args) (uids : List Nat) (server : Server) (db0 : Db) (b2 : Nat),
        Event.expunge b2 ∈ (runMain a uids server db0 []).2
          ↔ (0 < b2 ∧ b2 ≤ (chunk_iter uids a.chunk).length ∧ a.expunge_interval ≠ 0
             ∧ b2 % a.expunge_interval = 0 ∧ ¬ a.dry_run))
    ∧ (∀ (a : Args) (uids : List Nat) (server : Server) (db0 : Db),
        Event.expungeFinal ∈ (runMain a uids server db0 []).2 ↔ ¬ a.dry_run) := by
  refine ⟨?_, ?_, ?_⟩
  · intro l c hc
    exact ⟨chunk_iter_flatten hc l, chunk_iter_length hc l, chunk_iter_get hc l⟩
  · intro a uids server db0 b2
    exact (runMain_clean_expunge a uids server db0).1 b2
  · intro a uids server db0
    exact (runMain_clean_expunge a uids server db0).2

theorem claim_C8_witness :
    (0 < 3
      ∧ (chunk_iter (List.range 7) 3).flatten = List.range 7
      ∧ (chunk_iter (List.range 7) 3).length = 3
      ∧ (chunk_iter (List.range 7) 3).get? 2 = some [6])
    ∧ Event.expunge 3 ∉ (runMain ⟨"INBOX", .msgid_first, 3, 1, 1, false, 5⟩
        [1, 2, 3, 4, 5, 6, 7] [] ⟨[], []⟩ []).2
    ∧ (Event.expungeFinal ∈ (runMain ⟨"INBOX", .msgid_first, 3, 1, 1, false, 5⟩
        [1, 2, 3, 4, 5, 6, 7] [] ⟨[], []⟩ []).2 ↔ ¬ (⟨"INBOX", .msgid_first, 3, 1, 1,
          false, 5⟩ : Args).dry_run) := by
  refine ⟨⟨by decide, (claim_C8.1 (List.range 7) 3 (by decide)).1, ?_, ?_⟩, ?_, ?_⟩
  · rw [(claim_C8.1 (List.range 7) 3 (by decide)).2.1]
    decide
  · rw [(claim_C8.1 (List.range 7) 3 (by decide)).2.2 2]
    decide
  · intro h
    have := (claim_C8.2.1 ⟨"INBOX", .msgid_first, 3, 1, 1, false, 5⟩
      [1, 2, 3, 4, 5, 6, 7] [] ⟨[], []⟩ 3).mp h
    have hm := this.2.2.2.1
    simp at hm
  · exact claim_C8.2.2 ⟨"INBOX", .msgid_first, 3, 1, 1, false, 5⟩
      [1, 2, 3, 4, 5, 6, 7] [] ⟨[], []⟩

/-! ### Claim C9: dry-run issues nothing destructive yet commits the
same keep decisions as a real run -/

theorem chunk_iter_zero (l : List α) : chunk_iter l 0 = [] := by
  cases l <;> simp [chunk_iter, chunkIterAux]

theorem processBatch_dry_state (a : Args) (b : Nat) (st : RunSt) (batch : List Nat)
    (hdry : a.dry_run = true) :
    (processBatch a b st batch).1 = { st with
      db := dbCommit (classifyList a.mailbox a.criteria
        ⟨st.db, st.kept_new, st.kept_existing, []⟩ (fetchBatch st.server batch)).db,
      kept_new := (classifyList a.mailbox a.criteria
        ⟨st.db, st.kept_new, st.kept_existing, []⟩ (fetchBatch st.server batch)).kept_new,
      kept_existing := (classifyList a.mailbox a.criteria
        ⟨st.db, st.kept_new, st.kept_existing, []⟩
        (fetchBatch st.server batch)).kept_existing } := by
  have hcond : ¬ (a.expunge_interval ≠ 0 ∧ b % a.expunge_interval = 0 ∧ ¬ a.dry_run) := by
    intro hcon
    rw [hdry] at hcon
    exact hcon.2.2 rfl
  simp only [processBatch]
  split
  all_goals simp only [expungeStep]
  all_goals rw [if_neg hcond]

theorem processBatch_real_state (a : Args) (b : Nat) (st : RunSt) (batch : List Nat)
    (hdry : a.dry_run = false) (hs : st.script = []) (hsc : 0 < a.store_chunk) :
    (processBatch a b st batch).1 = { st with
      db := dbCommit (classifyList a.mailbox a.criteria
        ⟨st.db, st.kept_new, st.kept_existing, []⟩ (fetchBatch st.server batch)).db,
      server := (if a.expunge_interval ≠ 0 ∧ b % a.expunge_interval = 0 ∧ ¬ a.dry_run then
          expungeServer (setDeleted st.server (classifyList a.mailbox a.criteria
            ⟨st.db, st.kept_new, st.kept_existing, []⟩
            (fetchBatch st.server batch)).delete_uids)
        else setDeleted st.server (classifyList a.mailbox a.criteria
            ⟨st.db, st.kept_new, st.kept_existing, []⟩
            (fetchBatch st.server batch)).delete_uids),
      kept_new := (classifyList a.mailbox a.criteria
        ⟨st.db, st.kept_new, st.kept_existing, []⟩ (fetchBatch st.server batch)).kept_new,
      kept_existing := (classifyList a.mailbox a.criteria
        ⟨st.db, st.kept_new, st.kept_existing, []⟩ (fetchBatch st.server batch)).kept_existing,
      dupes_marked := st.dupes_marked + (classifyList a.mailbox a.criteria
        ⟨st.db, st.kept_new, st.kept_existing, []⟩
        (fetchBatch st.server batch)).delete_uids.length,
      script := [] } := by
  simp only [processBatch, mark_delete, hs]
  rw [markDeleteGo_nil_script, chunk_iter_flatten hsc]
  split
  · rename_i hdel
    rw [hdel, setDeleted_nil]
    simp only [expungeStep]
    split <;> rfl
  · rw [if_neg (show ¬ a.dry_run = true by rw [hdry]; simp)]
    split
    · simp only [expungeStep]
      split <;> rfl
    · rename_i hab
      exact absurd rfl hab

theorem fetchBatch_filter (sv : Server) (U batch : List Nat)
    (hsub : ∀ u ∈ batch, u ∈ U) :
    fetchBatch sv batch = (fetchBatch sv U).filter (fun m => m.uid ∈ batch) := by
  unfold fetchBatch
  rw [List.filter_filter]
  apply List.filter_congr
  intro m _
  by_cases hm : m.uid ∈ batch
  · simp [hm, hsub _ hm]
  · simp [hm]

theorem map_erase_filter (ms : List Msg) (batch : List Nat) :
    (ms.filter (fun m => m.uid ∈ batch)).map eraseFlag
      = (ms.map eraseFlag).filter (fun m => m.uid ∈ batch) := by
  rw [List.filter_map]
  rfl

theorem fetch_view_mono {sv1 sv2 : Server} {U : List Nat} (batch : List Nat)
    (hsub : ∀ u ∈ batch, u ∈ U)
    (h : (fetchBatch sv1 U).map eraseFlag = (fetchBatch sv2 U).map eraseFlag) :
    (fetchBatch sv1 batch).map eraseFlag = (fetchBatch sv2 batch).map eraseFlag := by
  rw [fetchBatch_filter sv1 U batch hsub, fetchBatch_filter sv2 U batch hsub,
      map_erase_filter, map_erase_filter, h]

theorem fetch_view_setDeleted (sv : Server) (dels U : List Nat) :
    (fetchBatch (setDeleted sv dels) U).map eraseFlag
      = (fetchBatch sv U).map eraseFlag := by
  have hg : ∀ m : Msg,
      ((if m.uid ∈ dels then { m with deleted := true } else m) : Msg).uid = m.uid := by
    intro m
    split <;> rfl
  have he : ∀ m : Msg,
      eraseFlag (if m.uid ∈ dels then { m with deleted := true } else m) = eraseFlag m := by
    intro m
    split <;> rfl
  unfold fetchBatch setDeleted
  rw [List.filter_map, List.map_map]
  rw [List.filter_congr (fun m _ => by
    show decide (((if m.uid ∈ dels then { m with deleted := true } else m) : Msg).uid ∈ U)
      = decide (m.uid ∈ U)
    rw [hg m])]
  exact List.map_congr_left (fun m _ => he m)

theorem fetch_view_expunge (sv : Server) (U : List Nat)
    (h : ∀ m ∈ sv, m.deleted = true → m.uid ∉ U) :
    fetchBatch (expungeServer sv) U = fetchBatch sv U := by
  unfold fetchBatch expungeServer
  rw [List.filter_filter]
  apply List.filter_congr
  intro m hm
  cases hd : m.deleted with
  | true => simp [hd, h m hm hd]
  | false => simp [hd]

theorem classifyList_eraseFlag (mb : String) (crit : Criteria) :
    ∀ (ms : List Msg) (st : ClassSt),
      classifyList mb crit st (ms.map eraseFlag) = classifyList mb crit st ms := by
  intro ms
  induction ms with
  | nil => intro st; rfl
  | cons m rest ih => intro st; exact ih (classifyOne mb crit st m)

theorem classifyList_view_congr (mb : String) (crit : Criteria) (st : ClassSt)
    {ms1 ms2 : List Msg} (h : ms1.map eraseFlag = ms2.map eraseFlag) :
    classifyList mb crit st ms1 = classifyList mb crit st ms2 := by
  rw [← classifyList_eraseFlag mb crit ms1 st, h, classifyList_eraseFlag]

theorem classifyOne_dels_from (mb : String) (crit : Criteria) (st : ClassSt) (m : Msg) :
    ∀ u ∈ (classifyOne mb crit st m).delete_uids, u ∈ st.delete_uids ∨ u = m.uid := by
  intro u
  simp only [classifyOne]
  cases hl : dbLookup st.db mb (digestOf crit m) with
  | none =>
    show u ∈ st.delete_uids → _
    exact fun h => Or.inl h
  | some keep =>
    show u ∈ (if keep = m.uid then
        ({ st with kept_existing := st.kept_existing + 1 } : ClassSt)
      else ({ st with delete_uids := st.delete_uids ++ [m.uid] } : ClassSt)).delete_uids → _
    by_cases hk : keep = m.uid
    · rw [if_pos hk]
      exact fun h => Or.inl h
    · rw [if_neg hk]
      intro h
      rcases List.mem_append.mp h with h | h
      · exact Or.inl h
      · exact Or.inr (by simpa using h)

theorem classifyList_dels_from (mb : String) (crit : Criteria) :
    ∀ (ms : List Msg) (st : ClassSt), ∀ u ∈ (classifyList mb crit st ms).delete_uids,
      u ∈ st.delete_uids ∨ ∃ m ∈ ms, m.uid = u := by
  intro ms
  induction ms with
  | nil =>
    intro st u hu
    exact Or.inl hu
  | cons m rest ih =>
    intro st u hu
    rcases ih (classifyOne mb crit st m) u hu with h | ⟨m2, hm2, he⟩
    · rcases classifyOne_dels_from mb crit st m u h with h | h
      · exact Or.inl h
      · exact Or.inr ⟨m, List.mem_cons_self m rest, h.symm⟩
    · exact Or.inr ⟨m2, List.mem_cons_of_mem m hm2, he⟩

theorem fetchBatch_uid_mem {sv : Server} {batch : List Nat} {m : Msg}
    (h : m ∈ fetchBatch sv batch) : m.uid ∈ batch := by
  have := List.of_mem_filter h
  simpa using this

theorem setDeleted_flag_from {sv : Server} {dels : List Nat} :
    ∀ m ∈ setDeleted sv dels, m.deleted = true →
      m.uid ∈ dels ∨ ∃ m0 ∈ sv, m0.uid = m.uid ∧ m0.deleted = true := by
  intro m hm hd
  unfold setDeleted at hm
  rw [List.mem_map] at hm
  obtain ⟨m0, hm0, heq⟩ := hm
  by_cases hu : m0.uid ∈ dels
  · rw [if_pos hu] at heq
    left
    rw [← heq]
    exact hu
  · rw [if_neg hu] at heq
    right
    exact ⟨m0, hm0, by rw [heq], by rw [heq]; exact hd⟩

theorem runBatches_dry_real (a : Args) (hdry : a.dry_run = false)
    (hsc : 0 < a.store_chunk) :
    ∀ (bs : List (List Nat)) (idx : Nat) (std str : RunSt),
      std.db = str.db → std.kept_new = str.kept_new →
      std.kept_existing = str.kept_existing →
      std.crashed = false → str.script = [] → str.crashed = false →
      (fetchBatch str.server bs.flatten).map eraseFlag
        = (fetchBatch std.server bs.flatten).map eraseFlag →
      bs.flatten.Nodup →
      (∀ m ∈ str.server, m.deleted = true → m.uid ∉ bs.flatten) →
      (runBatches { a with dry_run := true } idx std bs).1.db
        = (runBatches a idx str bs).1.db := by
  intro bs
  induction bs with
  | nil =>
    intro idx std str h1 _ _ _ _ _ _ _ _
    exact h1
  | cons batch rest ih =>
    intro idx std str hdb hkn hke hdc hrs hrc hview hnd hflag
    rw [runBatches_cons { a with dry_run := true } idx std batch rest hdc,
        runBatches_cons a idx str batch rest hrc]
    have hCd := processBatch_dry_state { a with dry_run := true } (idx + 1) std batch rfl
    have hCr := processBatch_real_state a (idx + 1) str batch hdry hrs hsc
    have hbsub : ∀ u ∈ batch, u ∈ (batch :: rest).flatten := by
      intro u hu
      rw [List.flatten_cons]
      exact List.mem_append.mpr (Or.inl hu)
    have hrsub : ∀ u ∈ rest.flatten, u ∈ (batch :: rest).flatten := by
      intro u hu
      rw [List.flatten_cons]
      exact List.mem_append.mpr (Or.inr hu)
    have hviewb := fetch_view_mono batch hbsub hview
    have hceq : classifyList ({ a with dry_run := true } : Args).mailbox
        ({ a with dry_run := true } : Args).criteria
        ⟨std.db, std.kept_new, std.kept_existing, []⟩ (fetchBatch std.server batch)
        = classifyList a.mailbox a.criteria
        ⟨str.db, str.kept_new, str.kept_existing, []⟩ (fetchBatch str.server batch) := by
      rw [show ({ a with dry_run := true } : Args).mailbox = a.mailbox from rfl,
          show ({ a with dry_run := true } : Args).criteria = a.criteria from rfl,
          hdb, hkn, hke]
      exact (classifyList_view_congr a.mailbox a.criteria _ hviewb).symm
    have hnd_flat : (batch ++ rest.flatten).Nodup := by
      rw [← List.flatten_cons]
      exact hnd
    have hdisj : batch.Disjoint rest.flatten := (List.nodup_append.mp hnd_flat).2.2
    have hdels_batch : ∀ u ∈ (classifyList a.mailbox a.criteria
        ⟨str.db, str.kept_new, str.kept_existing, []⟩
        (fetchBatch str.server batch)).delete_uids, u ∈ batch := by
      intro u hu
      rcases classifyList_dels_from a.mailbox a.criteria (fetchBatch str.server batch)
        ⟨str.db, str.kept_new, str.kept_existing, []⟩ u hu with h | ⟨m, hm, he⟩
      · exact absurd h (by simp)
      · rw [← he]
        exact fetchBatch_uid_mem hm
    have hflag2 : ∀ m ∈ setDeleted str.server (classifyList a.mailbox a.criteria
        ⟨str.db, str.kept_new, str.kept_existing, []⟩
        (fetchBatch str.server batch)).delete_uids,
        m.deleted = true → m.uid ∉ rest.flatten := by
      intro m hm hd
      rcases setDeleted_flag_from m hm hd with h | ⟨m0, hm0, huid, hd0⟩
      · exact hdisj (hdels_batch _ h)
      · intro hcon
        exact hflag m0 hm0 hd0 (by
          rw [huid, List.flatten_cons]
          exact List.mem_append.mpr (Or.inr hcon))
    have hsrv : (processBatch a (idx + 1) str batch).1.server =
        (if a.expunge_interval ≠ 0 ∧ (idx + 1) % a.expunge_interval = 0 ∧ ¬ a.dry_run then
          expungeServer (setDeleted str.server (classifyList a.mailbox a.criteria
            ⟨str.db, str.kept_new, str.kept_existing, []⟩
            (fetchBatch str.server batch)).delete_uids)
        else setDeleted str.server (classifyList a.mailbox a.criteria
            ⟨str.db, str.kept_new, str.kept_existing, []⟩
            (fetchBatch str.server batch)).delete_uids) := by
      rw [hCr]
    have hview2 : (fetchBatch (processBatch a (idx + 1) str batch).1.server
          rest.flatten).map eraseFlag
        = (fetchBatch (processBatch { a with dry_run := true } (idx + 1) std
            batch).1.server rest.flatten).map eraseFlag := by
      rw [hsrv, hCd]
      have hbase : (fetchBatch (setDeleted str.server (classifyList a.mailbox a.criteria
          ⟨str.db, str.kept_new, str.kept_existing, []⟩
          (fetchBatch str.server batch)).delete_uids) rest.flatten).map eraseFlag
          = (fetchBatch std.server rest.flatten).map eraseFlag := by
        rw [fetch_view_setDeleted]
        exact fetch_view_mono rest.flatten hrsub hview
      split
      · rw [fetch_view_expunge _ _ hflag2]
        exact hbase
      · exact hbase
    have hflag3 : ∀ m ∈ (processBatch a (idx + 1) str batch).1.server,
        m.deleted = true → m.uid ∉ rest.flatten := by
      intro m hm hd
      rw [hsrv] at hm
      split at hm
      · exact hflag2 m (List.mem_of_mem_filter hm) hd
      · exact hflag2 m hm hd
    exact ih (idx + 1) (processBatch { a with dry_run := true } (idx + 1) std batch).1
      (processBatch a (idx + 1) str batch).1
      (by rw [processBatch_db, processBatch_db, hceq])
      (by rw [hCd, hCr]; exact congrArg ClassSt.kept_new hceq)
      (by rw [hCd, hCr]; exact congrArg ClassSt.kept_existing hceq)
      (by rw [hCd]; exact hdc)
      (by rw [hCr])
      (by rw [hCr]; exact hrc)
      hview2
      ((List.nodup_append.mp hnd_flat).2.1)
      hflag3

theorem runBatches_dry_trace (a : Args) (hdry : a.dry_run = true) (bs : List (List Nat)) :
    ∀ (idx : Nat) (st : RunSt), ∀ ev ∈ (runBatches a idx st bs).2,
      (∃ b batch, ev = Event.fetch b batch) ∨ ∃ b, ev = Event.commit b := by
  induction bs with
  | nil =>
    intro idx st ev hev
    exact absurd hev (by simp [runBatches])
  | cons batch rest ih =>
    intro idx st ev hev
    by_cases hcr : st.crashed = true
    · rw [runBatches_cons_crashed a idx st batch rest hcr] at hev
      exact absurd hev (by simp)
    · rw [runBatches_cons a idx st batch rest (by revert hcr; cases st.crashed <;> simp)]
        at hev
      rcases List.mem_append.mp hev with h | h
      · rw [(processBatch_dry a (idx + 1) st batch hdry).1] at h
        rcases List.mem_cons.mp h with rfl | h2
        · exact Or.inl ⟨idx + 1, batch, rfl⟩
        · rw [List.mem_singleton] at h2
          exact Or.inr ⟨idx + 1, h2⟩
      · exact ih (idx + 1) (processBatch a (idx + 1) st batch).1 ev h

/-- C9: in dry-run mode every event of the full run trace is a FETCH or
a digest-store commit (so no delete-mark STORE, no mid-run expunge and
no final expunge is ever issued); and with a fault-free script, distinct
candidate UIDs and an initially unflagged mailbox, the dry run leaves
the digest store in exactly the state the corresponding real run
produces. -/
theorem claim_C9 :
    (∀ (a : Args) (uids : List Nat) (server : Server) (db0 : Db) (script : List Bool),
      a.dry_run = true →
      ∀ ev ∈ (runMain a uids server db0 script).2,
        (∃ b batch, ev = Event.fetch b batch) ∨ ∃ b, ev = Event.commit b)
    ∧ (∀ (a : Args) (uids : List Nat) (server : Server) (db0 : Db),
        a.dry_run = false → 0 < a.store_chunk → uids.Nodup →
        (∀ m ∈ server, m.deleted = false) →
        (runMain { a with dry_run := true } uids server db0 []).1.db
          = (runMain a uids server db0 []).1.db) := by
  constructor
  · intro a uids server db0 script hdry ev hev
    have htr : (runMain a uids server db0 script).2
        = (runBatches a 0 ⟨db0, server, 0, 0, 0, script, false⟩ (chunk_iter uids a.chunk)).2 := by
      simp only [runMain]
      split
      · rename_i hcond
        exact absurd hdry hcond.1
      · rfl
    rw [htr] at hev
    exact runBatches_dry_trace a hdry (chunk_iter uids a.chunk) 0
      ⟨db0, server, 0, 0, 0, script, false⟩ ev hev
  · intro a uids server db0 hdry hsc hnodup hflags
    rw [runMain_db { a with dry_run := true } uids server db0 [],
        runMain_db a uids server db0 []]
    have hndf : (chunk_iter uids a.chunk).flatten.Nodup := by
      by_cases hch : 0 < a.chunk
      · rw [chunk_iter_flatten hch]
        exact hnodup
      · rw [show a.chunk = 0 from by omega, chunk_iter_zero]
        exact List.nodup_nil
    have hfl : ∀ m ∈ server, m.deleted = true →
        m.uid ∉ (chunk_iter uids a.chunk).flatten := by
      intro m hm hd
      rw [hflags m hm] at hd
      exact absurd hd (by simp)
    exact runBatches_dry_real a hdry hsc (chunk_iter uids a.chunk) 0
      ⟨db0, server, 0, 0, 0, [], false⟩ ⟨db0, server, 0, 0, 0, [], false⟩
      rfl rfl rfl rfl rfl rfl rfl hndf hfl

theorem claim_C9_witness :
    (∀ ev ∈ (runMain ⟨"INBOX", .msgid_first, 2, 1, 1, true, 1⟩ [1, 2]
        [⟨1, "<a@x>", "", "", "", "", 9, false⟩, ⟨2, "<a@x>", "", "", "", "", 9, false⟩]
        ⟨[], []⟩ []).2,
      (∃ b batch, ev = Event.fetch b batch) ∨ ∃ b, ev = Event.commit b)
    ∧ (runMain { (⟨"INBOX", .msgid_first, 2, 1, 1, false, 1⟩ : Args) with dry_run := true }
        [1, 2] [⟨1, "<a@x>", "", "", "", "", 9, false⟩,
                ⟨2, "<a@x>", "", "", "", "", 9, false⟩] ⟨[], []⟩ []).1.db
      = (runMain ⟨"INBOX", .msgid_first, 2, 1, 1, false, 1⟩ [1, 2]
        [⟨1, "<a@x>", "", "", "", "", 9, false⟩, ⟨2, "<a@x>", "", "", "", "", 9, false⟩]
        ⟨[], []⟩ []).1.db := by
  constructor
  · exact claim_C9.1 ⟨"INBOX", .msgid_first, 2, 1, 1, true, 1⟩ [1, 2]
      [⟨1, "<a@x>", "", "", "", "", 9, false⟩, ⟨2, "<a@x>", "", "", "", "", 9, false⟩]
      ⟨[], []⟩ [] rfl
  · exact claim_C9.2 ⟨"INBOX", .msgid_first, 2, 1, 1, false, 1⟩ [1, 2]
      [⟨1, "<a@x>", "", "", "", "", 9, false⟩, ⟨2, "<a@x>", "", "", "", "", 9, false⟩]
      ⟨[], []⟩ rfl (by decide) (by decide) (by decide)

end ImapDedupe
